import Mathlib

/-!
# Verification of the CloudFront client-routing label library

Shallow embedding of the Rust sources (`bitwise.rs`, `client_routing_label.rs`,
`encode_decode.rs`, `errors.rs`, `ip.rs`) over `Nat`, with machine-integer
overflow made explicit by `% 2 ^ w` where the Rust types (`u8`, `u64`, `u128`)
can wrap.  Strings of base-32 symbols are modelled as `List Nat` of byte
values; the encoder is split, as in the source, into the per-field `while`
loop, the field `for` loop, and the final padding push.
-/

set_option maxHeartbeats 1000000
set_option maxRecDepth 100000

namespace CFCRL

instance exceptDecEq {ε α : Type} [DecidableEq ε] [DecidableEq α] :
    DecidableEq (Except ε α) := fun x y =>
  match x, y with
  | .ok a, .ok b =>
    if h : a = b then .isTrue (by rw [h])
    else .isFalse (by intro hh; cases hh; exact h rfl)
  | .ok _, .error _ => .isFalse (by intro h; cases h)
  | .error _, .ok _ => .isFalse (by intro h; cases h)
  | .error e, .error f =>
    if h : e = f then .isTrue (by rw [h])
    else .isFalse (by intro hh; cases hh; exact h rfl)

/-- `bitwise.rs` `get_mask`: `((1_u128 << num_bits) - 1) as u64`.
Faithful for `num_bits < 128` (larger shift amounts panic in Rust). -/
def get_mask (num_bits : Nat) : Nat := (2 ^ num_bits - 1) % 2 ^ 64

/-- `client_routing_label.rs` `EncodableData`: a `u64` value together with the
number of bits of it that remain to encode/decode. -/
structure EncodableData where
  value : Nat
  num_bits : Nat
deriving DecidableEq, Repr

/-- `EncodableData::get_next_bits_to_encode`: slices the top `num_bits_needed`
bits off the front of the field, masking the stored value down to the new
remaining width.  Returns the extracted bits (a `u8` in the source, hence the
`% 2 ^ 8` cast) together with the mutated field. -/
def EncodableData.get_next_bits_to_encode (d : EncodableData)
    (num_bits_needed : Nat) : Nat × EncodableData :=
  let nb := d.num_bits - num_bits_needed
  let mask := get_mask num_bits_needed <<< nb
  let bits_to_encode := (d.value &&& mask) >>> nb
  (bits_to_encode % 2 ^ 8, { value := d.value &&& get_mask nb, num_bits := nb })

/-- `EncodableData::has_bits_for_char`. -/
def EncodableData.has_bits_for_char (d : EncodableData)
    (num_bits_in_char : Nat) : Bool :=
  decide (num_bits_in_char ≤ d.num_bits)

/-- `EncodableData::add_bits`: `value <<= k; value |= v` on a `u64`
(the shift wraps modulo `2 ^ 64`), decrementing `num_bits` by `k`. -/
def EncodableData.add_bits (d : EncodableData)
    (num_bits_to_add value_to_add : Nat) : EncodableData :=
  { num_bits := d.num_bits - num_bits_to_add,
    value := ((d.value <<< num_bits_to_add) % 2 ^ 64) ||| value_to_add }

/-- `encode_decode.rs` `BASE32_ALPHABET`, as the list of byte values of
`b"abcdefghijklmnopqrstuvwxyz234567"`. -/
def BASE32_ALPHABET : List Nat :=
  [97, 98, 99, 100, 101, 102, 103, 104, 105, 106, 107, 108, 109,
   110, 111, 112, 113, 114, 115, 116, 117, 118, 119, 120, 121, 122,
   50, 51, 52, 53, 54, 55]

/-- The inner `while` loop of `Base32::encode`, with an explicit fuel
argument so the recursion is structural (each iteration strictly decreases
`num_bits`, so `num_bits` fuel is always enough; `encodeFieldLoop_eq` below
recovers the source's `while` shape).  While the current field has at least
`5 - num_bits_left_over` bits, extract that many, add them into the
accumulator byte (`u8` addition, hence `% 2 ^ 8`) and emit the symbol value.
Returns (emitted symbol values, mutated field, accumulator, leftover count).
The conjunct `0 < 5 - num_bits_left_over` only rules out the unreachable
states `num_bits_left_over ≥ 5`, where the source's `u8` subtraction would
panic or loop forever; on every reachable state the condition is exactly
`has_bits_for_char(5 - num_bits_left_over)`. -/
def encodeFieldLoopF : Nat → EncodableData → Nat → Nat →
    List Nat × EncodableData × Nat × Nat
  | 0, d, value_to_encode, num_bits_left_over =>
    ([], d, value_to_encode, num_bits_left_over)
  | fuel + 1, d, value_to_encode, num_bits_left_over =>
    if 5 - num_bits_left_over ≤ d.num_bits ∧ 0 < 5 - num_bits_left_over then
      let r := d.get_next_bits_to_encode (5 - num_bits_left_over)
      let rest := encodeFieldLoopF fuel r.2 0 0
      (((value_to_encode + r.1) % 2 ^ 8) :: rest.1, rest.2)
    else ([], d, value_to_encode, num_bits_left_over)

/-- The inner `while` loop of `Base32::encode` (see `encodeFieldLoopF`). -/
def encodeFieldLoop (d : EncodableData) (value_to_encode num_bits_left_over : Nat) :
    List Nat × EncodableData × Nat × Nat :=
  encodeFieldLoopF d.num_bits d value_to_encode num_bits_left_over

/-- The `for data in encodable_data` loop of `Base32::encode`: run the inner
`while` loop, then fold the field's remaining (fewer than `5 - leftover`) bits
into the accumulator at their sub-position (`u64` shift wraps mod `2 ^ 64`,
`& value_mask`, `as u8` cast) and grow the leftover count.  Returns
(emitted symbol values, mutated fields, accumulator, leftover count). -/
def encodeFields : List EncodableData → Nat → Nat →
    List Nat × List EncodableData × Nat × Nat
  | [], value_to_encode, num_bits_left_over =>
    ([], [], value_to_encode, num_bits_left_over)
  | data :: rest, value_to_encode, num_bits_left_over =>
    let r := encodeFieldLoop data value_to_encode num_bits_left_over
    let d1 := r.2.1
    let acc2 := r.2.2.1 |||
      ((((d1.value <<< (5 - (d1.num_bits + r.2.2.2))) % 2 ^ 64) &&& get_mask 5) % 2 ^ 8)
    let rr := encodeFields rest acc2 (r.2.2.2 + d1.num_bits)
    (r.1 ++ rr.1, d1 :: rr.2.1, rr.2.2)

/-- `Base32::encode`, producing the list of emitted 5-bit symbol values
(the source pushes `BASE32_ALPHABET[v] as char`; the alphabet mapping is
applied in `Base32.encodeString`).  After the field loop, a final padded
symbol is pushed when `num_bits_left_over > 0`. -/
def Base32.encodeValues (encodable_data : List EncodableData) : List Nat :=
  let r := encodeFields encodable_data 0 0
  if 0 < r.2.2.2 then r.1 ++ [r.2.2.1] else r.1

/-- The final state of the `encodable_data` fields mutated by `Base32::encode`. -/
def fieldsAfterEncode (encodable_data : List EncodableData) : List EncodableData :=
  (encodeFields encodable_data 0 0).2.1

/-- `Base32::encode` as the `String` the source returns. -/
def Base32.encodeString (encodable_data : List EncodableData) : String :=
  ⟨(Base32.encodeValues encodable_data).map
    (fun v => Char.ofNat (BASE32_ALPHABET.getD v 0))⟩

/-- `errors.rs` `DecodeLengthError`. -/
structure DecodeLengthError where
  num_chars : Nat
  expected_num_chars : Nat
deriving DecidableEq, Repr

/-- `Base32::is_valid_client_routing_label`.  The source compares
`client_routing_label.len() as u8` (a wrapping cast) with
`(total_num_bits + 5 - 1) / 5` computed in `u8` (wrapping add then wrapping
sub), and reports the un-cast `len()` in the error. -/
def Base32.is_valid_client_routing_label (total_num_bits : Nat)
    (client_routing_label : List Nat) : Except DecodeLengthError Unit :=
  let expected := ((total_num_bits + 5) % 2 ^ 8 + (2 ^ 8 - 1)) % 2 ^ 8 / 5
  if client_routing_label.length % 2 ^ 8 ≠ expected then
    .error { num_chars := client_routing_label.length,
             expected_num_chars := expected }
  else
    .ok ()

/-- The alphabet lookup in `Base32::decode`:
`BASE32_ALPHABET.iter().position(|b| a == b).unwrap_or(0)`. -/
def charValue (a : Nat) : Nat :=
  (BASE32_ALPHABET.findIdx? (fun b => a == b)).getD 0

/-- The inner `while` loop of `Base32::decode`: while the current field needs
at least `num_bits_in_char` more bits, shift in the whole current symbol and
move to the next one (whose available width is again 5).  Out-of-range
indexing (which would panic in the source) is modelled by `getD _ 0`; the
conjunct `0 < num_bits_in_char` only rules out the unreachable state
`num_bits_in_char = 0`, where the source would loop past the end of the
label. -/
def decodeFieldLoopF (fuel : Nat) (d : EncodableData) (label_values : List Nat)
    (label_index num_bits_in_char : Nat) : EncodableData × Nat × Nat :=
  match fuel with
  | 0 => (d, label_index, num_bits_in_char)
  | fuel + 1 =>
    if num_bits_in_char ≤ d.num_bits ∧ 0 < num_bits_in_char then
      decodeFieldLoopF fuel (d.add_bits num_bits_in_char (label_values.getD label_index 0))
        label_values (label_index + 1) 5
    else (d, label_index, num_bits_in_char)

/-- The inner `while` loop of `Base32::decode` (see `decodeFieldLoopF`;
each iteration strictly decreases `num_bits`, so `num_bits` fuel is always
enough, and `decodeFieldLoop_eq` below recovers the source's `while`
shape). -/
def decodeFieldLoop (d : EncodableData) (label_values : List Nat)
    (label_index num_bits_in_char : Nat) : EncodableData × Nat × Nat :=
  decodeFieldLoopF d.num_bits d label_values label_index num_bits_in_char

/-- The body of the `for data in encodable_data` loop of `Base32::decode`:
reset the field's value to 0, run the `while` loop, then if bits are still
missing take them from the most significant unconsumed bits of the current
symbol, mask those bits out of the stored symbol (`get_mask(..) as u8`), and
restore the field's `num_bits` to its original value.  Returns
(decoded field, updated symbol values, symbol index, bits left in symbol). -/
def decodeField (data : EncodableData) (label_values : List Nat)
    (label_index num_bits_in_char : Nat) :
    EncodableData × List Nat × Nat × Nat :=
  let original_num_bits := data.num_bits
  let r := decodeFieldLoop { data with value := 0 } label_values
    label_index num_bits_in_char
  let d1 := r.1
  if 0 < d1.num_bits then
    let nbic2 := r.2.2 - d1.num_bits
    let d2 := d1.add_bits d1.num_bits (label_values.getD r.2.1 0 >>> nbic2)
    ({ d2 with num_bits := original_num_bits },
     label_values.set r.2.1 (label_values.getD r.2.1 0 &&& (get_mask nbic2 % 2 ^ 8)),
     r.2.1, nbic2)
  else
    ({ d1 with num_bits := original_num_bits }, label_values, r.2.1, r.2.2)

/-- The field loop of `Base32::decode`. -/
def decodeFields : List EncodableData → List Nat → Nat → Nat →
    List EncodableData × List Nat × Nat × Nat
  | [], label_values, label_index, num_bits_in_char =>
    ([], label_values, label_index, num_bits_in_char)
  | data :: rest, label_values, label_index, num_bits_in_char =>
    let r := decodeField data label_values label_index num_bits_in_char
    let rr := decodeFields rest r.2.1 r.2.2.1 r.2.2.2
    (r.1 :: rr.1, rr.2)

/-- `Base32::decode`: validate the length, map every byte through the
alphabet lookup, then fill the fields (`num_bits_in_char` starts at 5,
`label_index` at 0).  Returns the decoded fields (the source mutates them in
place and returns `Ok(())`). -/
def Base32.decode (encodable_data : List EncodableData)
    (encoded_label : List Nat) (total_num_bits : Nat) :
    Except DecodeLengthError (List EncodableData) :=
  match Base32.is_valid_client_routing_label total_num_bits encoded_label with
  | .error e => .error e
  | .ok () =>
    .ok (decodeFields encodable_data (encoded_label.map charValue) 0 5).1

/-- `client_routing_label.rs` `CLIENT_ROUTING_LABEL_VERSION`. -/
def CLIENT_ROUTING_LABEL_VERSION : Nat := 1

/-- `ClientRoutingLabel::default()`: the fixed 5-field, 145-bit schema. -/
def ClientRoutingLabel.default : List EncodableData :=
  [{ value := CLIENT_ROUTING_LABEL_VERSION, num_bits := 10 },
   { value := 0, num_bits := 1 },
   { value := 0, num_bits := 64 },
   { value := 0, num_bits := 6 },
   { value := 0, num_bits := 64 }]

/-- `ip.rs` `ClientSubnetEncodingData`. -/
structure ClientSubnetEncodingData where
  client_subnet : Nat
  subnet_mask : Nat
  is_ipv6 : Nat
deriving DecidableEq, Repr

/-- `ClientRoutingLabel::set_data`: overwrite the values (not the widths) of
fields 1–4 of the 5-field schema. -/
def ClientRoutingLabel.set_data (l : List EncodableData)
    (c : ClientSubnetEncodingData) (cgid : Nat) : List EncodableData :=
  match l with
  | [d0, d1, d2, d3, d4] =>
    [d0, { d1 with value := c.is_ipv6 }, { d2 with value := c.client_subnet },
     { d3 with value := c.subnet_mask }, { d4 with value := cgid }]
  | l => l

/-- `ClientRoutingLabel::encode`. -/
def ClientRoutingLabel.encode (l : List EncodableData) : String :=
  Base32.encodeString l

/-- `ClientRoutingLabel::get_total_num_bits`. -/
def ClientRoutingLabel.get_total_num_bits (l : List EncodableData) : Nat :=
  l.foldl (fun a b => a + b.num_bits) 0

/-- The parsed form of a textual IP address: Rust std's
`str::parse::<IpAddr>` is abstracted as this oracle input (its result is
`none` for unparseable input).  `v4` carries the four octets,
`v6` carries `u128::from_be_bytes(octets)`. -/
inductive IpAddr where
  | v4 (o0 o1 o2 o3 : Nat)
  | v6 (beBytes : Nat)

/-- `ip.rs` `parse_client_ip`, over the abstracted parse result.
For IPv4: `(u32::from_be_bytes(octets) as u64 & 0xffffff00) << 32` (a `u64`
shift, wrapping mod `2 ^ 64`), mask 24.  For IPv6:
`((u128::from_be_bytes(octets) >> 64) & 0xffffffffffff0000) as u64`, mask 48.
Unparseable input yields all zeroes. -/
def parse_client_ip (client_ip : Option IpAddr) : ClientSubnetEncodingData :=
  match client_ip with
  | some (.v4 o0 o1 o2 o3) =>
    { client_subnet :=
        (((o0 * 2 ^ 24 + o1 * 2 ^ 16 + o2 * 2 ^ 8 + o3) &&& 0xffffff00) <<< 32) % 2 ^ 64,
      subnet_mask := 24, is_ipv6 := 0 }
  | some (.v6 x) =>
    { client_subnet := (x >>> 64) &&& 0xffffffffffff0000,
      subnet_mask := 48, is_ipv6 := 1 }
  | none => { client_subnet := 0, subnet_mask := 0, is_ipv6 := 0 }

/-! ## Basic facts about the loops -/

theorem get_next_num_bits (d : EncodableData) (k : Nat) :
    (d.get_next_bits_to_encode k).2.num_bits = d.num_bits - k := rfl

theorem encodeFieldLoopF_congr : ∀ (f1 f2 : Nat) (d : EncodableData) (acc left : Nat),
    d.num_bits ≤ f1 → d.num_bits ≤ f2 →
    encodeFieldLoopF f1 d acc left = encodeFieldLoopF f2 d acc left := by
  intro f1
  induction f1 with
  | zero =>
    intro f2 d acc left h1 h2
    have hnb : d.num_bits = 0 := Nat.le_zero.mp h1
    cases f2 with
    | zero => rfl
    | succ f2 =>
      simp only [encodeFieldLoopF]
      rw [if_neg]
      omega
  | succ f1 ih =>
    intro f2 d acc left h1 h2
    cases f2 with
    | zero =>
      have hnb : d.num_bits = 0 := Nat.le_zero.mp h2
      simp only [encodeFieldLoopF]
      rw [if_neg]
      omega
    | succ f2 =>
      simp only [encodeFieldLoopF]
      by_cases hc : 5 - left ≤ d.num_bits ∧ 0 < 5 - left
      · rw [if_pos hc, if_pos hc]
        have hrec := ih f2 (d.get_next_bits_to_encode (5 - left)).2 0 0
          (by rw [get_next_num_bits]; omega) (by rw [get_next_num_bits]; omega)
        simp only [hrec]
      · rw [if_neg hc, if_neg hc]

theorem encodeFieldLoop_eq (d : EncodableData) (acc left : Nat) :
    encodeFieldLoop d acc left =
      if 5 - left ≤ d.num_bits ∧ 0 < 5 - left then
        let r := d.get_next_bits_to_encode (5 - left)
        let rest := encodeFieldLoop r.2 0 0
        (((acc + r.1) % 2 ^ 8) :: rest.1, rest.2)
      else ([], d, acc, left) := by
  unfold encodeFieldLoop
  cases hnb : d.num_bits with
  | zero =>
    simp only [encodeFieldLoopF]
    rw [if_neg]
    omega
  | succ n =>
    simp only [encodeFieldLoopF]
    by_cases hc : 5 - left ≤ d.num_bits ∧ 0 < 5 - left
    · rw [if_pos, if_pos]
      · have : encodeFieldLoopF n (d.get_next_bits_to_encode (5 - left)).2 0 0 =
            encodeFieldLoopF (d.get_next_bits_to_encode (5 - left)).2.num_bits
              (d.get_next_bits_to_encode (5 - left)).2 0 0 :=
          encodeFieldLoopF_congr _ _ _ _ _ (by rw [get_next_num_bits]; omega) le_rfl
        simp only [this]
      · omega
      · omega
    · rw [if_neg, if_neg]
      · omega
      · omega

theorem add_bits_num_bits (d : EncodableData) (k v : Nat) :
    (d.add_bits k v).num_bits = d.num_bits - k := rfl

theorem decodeFieldLoopF_congr : ∀ (f1 f2 : Nat) (d : EncodableData)
    (lv : List Nat) (i n : Nat), d.num_bits ≤ f1 → d.num_bits ≤ f2 →
    decodeFieldLoopF f1 d lv i n = decodeFieldLoopF f2 d lv i n := by
  intro f1
  induction f1 with
  | zero =>
    intro f2 d lv i n h1 h2
    cases f2 with
    | zero => rfl
    | succ f2 =>
      simp only [decodeFieldLoopF]
      rw [if_neg]
      omega
  | succ f1 ih =>
    intro f2 d lv i n h1 h2
    cases f2 with
    | zero =>
      simp only [decodeFieldLoopF]
      rw [if_neg]
      omega
    | succ f2 =>
      simp only [decodeFieldLoopF]
      by_cases hc : n ≤ d.num_bits ∧ 0 < n
      · rw [if_pos hc, if_pos hc]
        exact ih f2 _ lv (i + 1) 5 (by rw [add_bits_num_bits]; omega)
          (by rw [add_bits_num_bits]; omega)
      · rw [if_neg hc, if_neg hc]

theorem decodeFieldLoop_eq (d : EncodableData) (lv : List Nat) (i n : Nat) :
    decodeFieldLoop d lv i n =
      if n ≤ d.num_bits ∧ 0 < n then
        decodeFieldLoop (d.add_bits n (lv.getD i 0)) lv (i + 1) 5
      else (d, i, n) := by
  unfold decodeFieldLoop
  cases hnb : d.num_bits with
  | zero =>
    simp only [decodeFieldLoopF]
    rw [if_neg]
    omega
  | succ m =>
    simp only [decodeFieldLoopF]
    by_cases hc : n ≤ d.num_bits ∧ 0 < n
    · rw [if_pos, if_pos]
      · exact decodeFieldLoopF_congr _ _ _ lv (i + 1) 5
          (by rw [add_bits_num_bits]; omega) le_rfl
      · omega
      · omega
    · rw [if_neg, if_neg]
      · omega
      · omega

/-! ## A small toolkit of `Nat` bitwise identities -/

theorem land_two_pow_sub_one (x n : Nat) : x &&& (2 ^ n - 1) = x % 2 ^ n :=
  Nat.and_pow_two_sub_one_eq_mod x n

theorem land_mask_mul (y k m : Nat) :
    y &&& ((2 ^ m - 1) * 2 ^ k) = y / 2 ^ k % 2 ^ m * 2 ^ k := by
  apply Nat.eq_of_testBit_eq
  intro i
  rw [Nat.testBit_land, ← Nat.shiftLeft_eq (2 ^ m - 1) k, Nat.testBit_shiftLeft,
    ← Nat.shiftLeft_eq (y / 2 ^ k % 2 ^ m) k, Nat.testBit_shiftLeft,
    Nat.testBit_mod_two_pow, ← Nat.shiftRight_eq_div_pow, Nat.testBit_shiftRight,
    Nat.testBit_two_pow_sub_one]
  by_cases hik : k ≤ i
  · have : k + (i - k) = i := Nat.add_sub_cancel' hik
    simp [ge_iff_le, hik, this, Bool.and_comm]
  · simp [ge_iff_le, hik]

theorem testBit_mul_pow_add (a k v j : Nat) (hv : v < 2 ^ k) :
    (a * 2 ^ k + v).testBit j = if j < k then v.testBit j else a.testBit (j - k) := by
  by_cases hj : j < k
  · have hmod : (a * 2 ^ k + v) % 2 ^ k = v := by
      rw [Nat.add_comm, Nat.add_mul_mod_self_right, Nat.mod_eq_of_lt hv]
    rw [if_pos hj]
    conv_rhs => rw [← hmod]
    rw [Nat.testBit_mod_two_pow]
    simp [hj]
  · have hdiv : (a * 2 ^ k + v) / 2 ^ k = a := by
      rw [Nat.add_comm, Nat.add_mul_div_right _ _ (Nat.two_pow_pos k),
        Nat.div_eq_of_lt hv, Nat.zero_add]
    have hshift : ((a * 2 ^ k + v) >>> k).testBit (j - k) = (a * 2 ^ k + v).testBit j := by
      rw [Nat.testBit_shiftRight, Nat.add_sub_cancel' (by omega : k ≤ j)]
    rw [if_neg hj, ← hshift, Nat.shiftRight_eq_div_pow, hdiv]

theorem shiftLeft_lor_eq_add (a k v : Nat) (hv : v < 2 ^ k) :
    (a <<< k) ||| v = a * 2 ^ k + v := by
  apply Nat.eq_of_testBit_eq
  intro j
  rw [Nat.testBit_lor, Nat.testBit_shiftLeft, testBit_mul_pow_add a k v j hv]
  by_cases hj : j < k
  · have : ¬ j ≥ k := by omega
    simp [this, hj]
  · have hge : j ≥ k := by omega
    have hvj : v.testBit j = false :=
      Nat.testBit_lt_two_pow (lt_of_lt_of_le hv (Nat.pow_le_pow_right (by norm_num) hge))
    simp [hge, hj, hvj]

/-! ## C8: the bit-mask primitive -/

/-- **C8.** For every `n` with `0 ≤ n ≤ 64`, `get_mask n` is the unsigned
64-bit value with exactly the low `n` bits set and all higher bits zero,
i.e. `2 ^ n - 1`; the `u128` intermediate makes this correct at `n = 64`. -/
theorem get_mask_low_bits (n : Nat) (h : n ≤ 64) : get_mask n = 2 ^ n - 1 := by
  have h2 : 2 ^ n ≤ 2 ^ 64 := Nat.pow_le_pow_right (by norm_num) h
  unfold get_mask
  exact Nat.mod_eq_of_lt (by omega)

/-- Witness for **C8** at the boundary values `n = 64` and `n = 0`. -/
theorem get_mask_low_bits_witness : get_mask 64 = 2 ^ 64 - 1 ∧ get_mask 0 = 0 :=
  ⟨get_mask_low_bits 64 (by norm_num), by decide⟩

/-! ## C2: length validation -/

/-- **C2 (amended).** In the overflow-free ranges `T ≤ 251` and
token length `< 256`, length validation accepts exactly the length
`⌈T / 5⌉ = (T + 4) / 5`; any other length produces the length-mismatch
error carrying the observed and expected counts, and `decode` returns that
error without touching the fields.  (Outside these ranges the source's `u8`
casts wrap; see the counterexample.) -/
theorem length_validation (T : Nat) (label : List Nat)
    (fields : List EncodableData) (hT : T ≤ 251) (hL : label.length < 256) :
    (Base32.is_valid_client_routing_label T label = .ok () ↔
      label.length = (T + 4) / 5) ∧
    (label.length ≠ (T + 4) / 5 →
      Base32.is_valid_client_routing_label T label =
        .error { num_chars := label.length, expected_num_chars := (T + 4) / 5 } ∧
      Base32.decode fields label T =
        .error { num_chars := label.length, expected_num_chars := (T + 4) / 5 }) := by
  have h256 : (2 : Nat) ^ 8 = 256 := by norm_num
  have hexp : ((T + 5) % 2 ^ 8 + (2 ^ 8 - 1)) % 2 ^ 8 / 5 = (T + 4) / 5 := by
    rw [h256]
    omega
  have hlen : label.length % 2 ^ 8 = label.length := by
    rw [h256]
    omega
  by_cases h : label.length = (T + 4) / 5
  · refine ⟨⟨fun _ => h, fun _ => ?_⟩, fun hne => absurd h hne⟩
    simp only [Base32.is_valid_client_routing_label, hexp, hlen]
    rw [if_neg (by simp [h])]
  · have hvalid : Base32.is_valid_client_routing_label T label =
        .error { num_chars := label.length, expected_num_chars := (T + 4) / 5 } := by
      simp only [Base32.is_valid_client_routing_label, hexp, hlen]
      rw [if_pos h]
    refine ⟨⟨fun hok => ?_, fun hh => absurd hh h⟩, fun _ => ⟨hvalid, ?_⟩⟩
    · rw [hvalid] at hok
      cases hok
    · simp only [Base32.decode, hvalid]

/-- Witness for **C2**: the 29-byte token of all `'a'`s is accepted against
the 145-bit schema, and a 25-byte token is rejected with observed 25,
expected 29. -/
theorem length_validation_witness :
    Base32.is_valid_client_routing_label 145 (List.replicate 29 97) = .ok () ∧
    Base32.decode ClientRoutingLabel.default (List.replicate 25 97) 145 =
      .error { num_chars := 25, expected_num_chars := 29 } := by
  have h1 := (length_validation 145 (List.replicate 29 97)
    ClientRoutingLabel.default (by norm_num) (by simp)).1.mpr (by simp)
  have h2 := ((length_validation 145 (List.replicate 25 97)
    ClientRoutingLabel.default (by norm_num) (by simp)).2 (by simp)).2
  refine ⟨h1, ?_⟩
  simpa using h2

/-- **C2 counterexample.** As stated over *every* byte length the claim is
false: the length check casts the length to `u8`, so a 285-byte token
(285 mod 256 = 29) is accepted against the 145-bit schema and decode
proceeds, although 285 ≠ ⌈145 / 5⌉ = 29. -/
theorem length_validation_counterexample :
    Base32.is_valid_client_routing_label 145 (List.replicate 285 97) = .ok () ∧
    (Base32.decode ClientRoutingLabel.default (List.replicate 285 97) 145).isOk = true ∧
    (285 : Nat) ≠ (145 + 4) / 5 := by
  decide

/-! ## C9: the address parser -/

/-- **C9.** `parse_client_ip` never errors: for a parseable IPv4 address the
fingerprint's top 24 bits are the masked octets `o0, o1, o2` and the low 40
bits are zero, with mask length 24 and `is_ipv6 = 0`; for a parseable IPv6
address the top 48 bits are the leading address bits and the low 16 bits are
zero, with mask length 48 and `is_ipv6 = 1`; unparseable input yields all
zeroes. -/
theorem parse_client_ip_spec :
    (∀ o0 o1 o2 o3 : Nat, o0 < 256 → o1 < 256 → o2 < 256 → o3 < 256 →
      parse_client_ip (some (.v4 o0 o1 o2 o3)) =
        { client_subnet := (o0 * 2 ^ 16 + o1 * 2 ^ 8 + o2) * 2 ^ 40,
          subnet_mask := 24, is_ipv6 := 0 }) ∧
    (∀ x : Nat, x < 2 ^ 128 →
      parse_client_ip (some (.v6 x)) =
        { client_subnet := x / 2 ^ 80 * 2 ^ 16, subnet_mask := 48, is_ipv6 := 1 }) ∧
    parse_client_ip none = { client_subnet := 0, subnet_mask := 0, is_ipv6 := 0 } := by
  refine ⟨fun o0 o1 o2 o3 h0 h1 h2 h3 => ?_, fun x hx => ?_, rfl⟩
  · simp only [parse_client_ip]
    have hm : (0xffffff00 : Nat) = (2 ^ 24 - 1) * 2 ^ 8 := by norm_num
    have hsum : o0 * 2 ^ 24 + o1 * 2 ^ 16 + o2 * 2 ^ 8 + o3 =
        (o0 * 2 ^ 16 + o1 * 2 ^ 8 + o2) * 2 ^ 8 + o3 := by ring
    have hdiv : (o0 * 2 ^ 24 + o1 * 2 ^ 16 + o2 * 2 ^ 8 + o3) / 2 ^ 8 =
        o0 * 2 ^ 16 + o1 * 2 ^ 8 + o2 := by
      rw [hsum, Nat.add_comm, Nat.add_mul_div_right _ _ (Nat.two_pow_pos 8),
        Nat.div_eq_of_lt h3, Nat.zero_add]
    have hlt : o0 * 2 ^ 16 + o1 * 2 ^ 8 + o2 < 2 ^ 24 := by
      have e16 : (2 : Nat) ^ 16 = 65536 := by norm_num
      have e8 : (2 : Nat) ^ 8 = 256 := by norm_num
      have e24 : (2 : Nat) ^ 24 = 16777216 := by norm_num
      rw [e16, e8, e24]
      omega
    rw [hm, land_mask_mul, hdiv, Nat.mod_eq_of_lt hlt, Nat.shiftLeft_eq]
    have harr : (o0 * 2 ^ 16 + o1 * 2 ^ 8 + o2) * 2 ^ 8 * 2 ^ 32 =
        (o0 * 2 ^ 16 + o1 * 2 ^ 8 + o2) * 2 ^ 40 := by ring
    rw [harr, Nat.mod_eq_of_lt (by
      calc (o0 * 2 ^ 16 + o1 * 2 ^ 8 + o2) * 2 ^ 40 < 2 ^ 24 * 2 ^ 40 :=
        (Nat.mul_lt_mul_right (Nat.two_pow_pos 40)).mpr hlt
      _ = 2 ^ 64 := by norm_num)]
  · simp only [parse_client_ip]
    have hm : (0xffffffffffff0000 : Nat) = (2 ^ 48 - 1) * 2 ^ 16 := by norm_num
    have hdd : x >>> 64 / 2 ^ 16 = x / 2 ^ 80 := by
      rw [Nat.shiftRight_eq_div_pow, Nat.div_div_eq_div_mul]
      norm_num
    have hlt : x / 2 ^ 80 < 2 ^ 48 := by
      rw [Nat.div_lt_iff_lt_mul (Nat.two_pow_pos 80)]
      calc x < 2 ^ 128 := hx
      _ = 2 ^ 48 * 2 ^ 80 := by norm_num
    rw [hm, land_mask_mul, hdd, Nat.mod_eq_of_lt hlt]

/-- Witness for **C9** at the repository's own test vectors:
`85.83.215.126` and `819e:5c2e:21e4:0094:4805:1635:f8e4:049b`. -/
theorem parse_client_ip_spec_witness :
    parse_client_ip (some (.v4 85 83 215 126)) =
      { client_subnet := 6148494311290830848, subnet_mask := 24, is_ipv6 := 0 } ∧
    parse_client_ip (some (.v6 0x819e5c2e21e4009448051635f8e4049b)) =
      { client_subnet := 9340004030419828736, subnet_mask := 48, is_ipv6 := 1 } := by
  constructor
  · rw [parse_client_ip_spec.1 85 83 215 126 (by norm_num) (by norm_num)
      (by norm_num) (by norm_num)]
    decide
  · rw [parse_client_ip_spec.2.1 0x819e5c2e21e4009448051635f8e4049b (by norm_num)]
    decide

/-! ## C10: decode ignores pre-existing field values -/

theorem decodeField_congr (d1 d2 : EncodableData) (h : d1.num_bits = d2.num_bits)
    (lv : List Nat) (i n : Nat) : decodeField d1 lv i n = decodeField d2 lv i n := by
  have hz : ({ d1 with value := 0 } : EncodableData) = { d2 with value := 0 } := by
    cases d1
    cases d2
    simp_all
  unfold decodeField
  rw [hz, h]

theorem decodeFields_congr : ∀ (fs1 fs2 : List EncodableData) (lv : List Nat) (i n : Nat),
    fs1.map EncodableData.num_bits = fs2.map EncodableData.num_bits →
    decodeFields fs1 lv i n = decodeFields fs2 lv i n := by
  intro fs1
  induction fs1 with
  | nil =>
    intro fs2 lv i n h
    cases fs2 with
    | nil => rfl
    | cons d2 rest2 => simp at h
  | cons d rest ih =>
    intro fs2 lv i n h
    cases fs2 with
    | nil => simp at h
    | cons d2 rest2 =>
      simp only [List.map_cons, List.cons.injEq] at h
      simp only [decodeFields]
      rw [decodeField_congr d d2 h.1, ih rest2 _ _ _ h.2]

/-- **C10.** The result of `decode` does not depend on the field values
present before the call: two field lists with identical widths but arbitrary
initial values decode any label identically (each field's value is reset to
0 before its fragments are shifted in). -/
theorem decode_ignores_initial_values (fields1 fields2 : List EncodableData)
    (label : List Nat) (T : Nat)
    (h : fields1.map EncodableData.num_bits = fields2.map EncodableData.num_bits) :
    Base32.decode fields1 label T = Base32.decode fields2 label T := by
  unfold Base32.decode
  cases hv : Base32.is_valid_client_routing_label T label with
  | error e => rfl
  | ok u =>
    cases u
    rw [decodeFields_congr _ _ _ _ _ h]

/-- Witness for **C10**: a field holding stale value 7 and a field holding
stale value 2 decode the one-symbol label `"b"` identically. -/
theorem decode_ignores_initial_values_witness :
    Base32.decode [{ value := 7, num_bits := 5 }] [98] 5 =
      Base32.decode [{ value := 2, num_bits := 5 }] [98] 5 :=
  decode_ignores_initial_values [{ value := 7, num_bits := 5 }]
    [{ value := 2, num_bits := 5 }] [98] 5 (by decide)

/-! ## C4: which passes restore the width counters -/

theorem decodeField_num_bits (d : EncodableData) (lv : List Nat) (i n : Nat) :
    (decodeField d lv i n).1.num_bits = d.num_bits := by
  simp only [decodeField]
  split <;> rfl

theorem decodeFields_num_bits : ∀ (fs : List EncodableData) (lv : List Nat) (i n : Nat),
    (decodeFields fs lv i n).1.map EncodableData.num_bits =
      fs.map EncodableData.num_bits := by
  intro fs
  induction fs with
  | nil => intro lv i n; rfl
  | cons d rest ih =>
    intro lv i n
    simp only [decodeFields, List.map_cons, decodeField_num_bits, ih]

/-- **C4 (amended).** After a single *successful decode* pass each field's
`num_bits` is restored to its nominal value (the source saves and restores
it per field).  After an *encode* pass it is **not** restored — encoding
leaves each field's `num_bits` at its residual value below 5 (see the
counterexample) — so only decode leaves the structure reusable. -/
theorem decode_restores_num_bits (fields : List EncodableData) (label : List Nat)
    (T : Nat) (fields' : List EncodableData)
    (h : Base32.decode fields label T = .ok fields') :
    fields'.map EncodableData.num_bits = fields.map EncodableData.num_bits := by
  unfold Base32.decode at h
  cases hv : Base32.is_valid_client_routing_label T label with
  | error e =>
    rw [hv] at h
    cases h
  | ok u =>
    cases u
    rw [hv] at h
    cases h
    exact decodeFields_num_bits fields _ 0 5

/-- Witness for **C4**: decoding `"b"` into a 5-bit field restores its width. -/
theorem decode_restores_num_bits_witness :
    ([{ value := 1, num_bits := 5 }] : List EncodableData).map EncodableData.num_bits =
      ([{ value := 7, num_bits := 5 }] : List EncodableData).map EncodableData.num_bits :=
  decode_restores_num_bits [{ value := 7, num_bits := 5 }] [98] 5
    [{ value := 1, num_bits := 5 }] (by decide)

/-- **C4 counterexample.** An *encode* pass does not restore `num_bits`:
encoding the single 5-bit field with value 10 leaves the field at
`num_bits = 0` (value consumed), not at its nominal 5. -/
theorem encode_does_not_restore_num_bits :
    (fieldsAfterEncode [{ value := 10, num_bits := 5 }]).map EncodableData.num_bits ≠
      ([{ value := 10, num_bits := 5 }] : List EncodableData).map EncodableData.num_bits := by
  decide

/-! ## C7: lenient decoding of unknown symbols -/

theorem findIdx?_none_of_all_false {α : Type} (p : α → Bool) :
    ∀ (l : List α), (∀ x ∈ l, p x = false) → l.findIdx? p = none := by
  intro l h
  rw [List.findIdx?_eq_none_iff]
  exact h

theorem charValue_of_not_mem (c : Nat) (hc : c ∉ BASE32_ALPHABET) : charValue c = 0 := by
  unfold charValue
  rw [findIdx?_none_of_all_false _ _ ?_]
  · rfl
  · intro x hx
    simp only [beq_eq_false_iff_ne, ne_eq]
    rintro rfl
    exact hc hx

theorem is_valid_congr_length (T : Nat) (l1 l2 : List Nat) (h : l1.length = l2.length) :
    Base32.is_valid_client_routing_label T l1 = Base32.is_valid_client_routing_label T l2 := by
  unfold Base32.is_valid_client_routing_label
  rw [h]

theorem decode_isOk_eq (f : List EncodableData) (l : List Nat) (T : Nat) :
    (Base32.decode f l T).isOk = (Base32.is_valid_client_routing_label T l).isOk := by
  unfold Base32.decode
  cases hv : Base32.is_valid_client_routing_label T l with
  | error e => rfl
  | ok u => cases u; rfl

/-- **C7.** Replacing any byte of a token by a byte outside the 32-symbol
alphabet decodes exactly as replacing it by `'a'` (byte 97, symbol value 0),
and such a replacement never changes whether decoding succeeds: decode
fails only on length, never on unknown symbols. -/
theorem decode_lenient (fields : List EncodableData) (label : List Nat)
    (T p c : Nat) (hc : c ∉ BASE32_ALPHABET) :
    Base32.decode fields (label.set p c) T = Base32.decode fields (label.set p 97) T ∧
    (Base32.decode fields (label.set p c) T).isOk = (Base32.decode fields label T).isOk := by
  have hlen : (label.set p c).length = (label.set p 97).length := by
    rw [List.length_set, List.length_set]
  have hmap : (label.set p c).map charValue = (label.set p 97).map charValue := by
    rw [List.map_set, List.map_set, charValue_of_not_mem c hc,
      show charValue 97 = 0 from by decide]
  constructor
  · unfold Base32.decode
    rw [is_valid_congr_length T _ _ hlen]
    cases hv : Base32.is_valid_client_routing_label T (label.set p 97) with
    | error e => rfl
    | ok u =>
      cases u
      rw [hmap]
  · rw [decode_isOk_eq, decode_isOk_eq,
      is_valid_congr_length T (label.set p c) label (List.length_set ..)]

/-- Witness for **C7**: in the one-symbol label `"b"`, replacing the byte by
`'0'` (outside the alphabet) decodes as `'a'` would, and still succeeds. -/
theorem decode_lenient_witness :
    Base32.decode [{ value := 0, num_bits := 5 }] ([98].set 0 48) 5 =
      Base32.decode [{ value := 0, num_bits := 5 }] ([98].set 0 97) 5 ∧
    (Base32.decode [{ value := 0, num_bits := 5 }] ([98].set 0 48) 5).isOk =
      (Base32.decode [{ value := 0, num_bits := 5 }] [98] 5).isOk :=
  decode_lenient [{ value := 0, num_bits := 5 }] [98] 5 0 48 (by decide)

/-! ## C3: output length of the encoder -/

theorem encodeFieldLoopF_count : ∀ (fuel : Nat) (d : EncodableData) (acc left : Nat),
    d.num_bits ≤ fuel → left ≤ 4 →
    5 * (encodeFieldLoopF fuel d acc left).1.length +
      (encodeFieldLoopF fuel d acc left).2.1.num_bits +
      (encodeFieldLoopF fuel d acc left).2.2.2 = d.num_bits + left ∧
    (encodeFieldLoopF fuel d acc left).2.1.num_bits +
      (encodeFieldLoopF fuel d acc left).2.2.2 < 5 ∧
    ((encodeFieldLoopF fuel d acc left).1 = [] →
      encodeFieldLoopF fuel d acc left = ([], d, acc, left)) ∧
    ((encodeFieldLoopF fuel d acc left).1 ≠ [] →
      (encodeFieldLoopF fuel d acc left).2.2.1 = 0 ∧
      (encodeFieldLoopF fuel d acc left).2.2.2 = 0) := by
  intro fuel
  induction fuel with
  | zero =>
    intro d acc left hf hl
    simp only [encodeFieldLoopF, List.length_nil]
    refine ⟨by omega, by omega, ?_, ?_⟩ <;> simp
  | succ fuel ih =>
    intro d acc left hf hl
    by_cases hc : 5 - left ≤ d.num_bits ∧ 0 < 5 - left
    · have hrec : (d.get_next_bits_to_encode (5 - left)).2.num_bits ≤ fuel := by
        rw [get_next_num_bits]
        omega
      have := ih (d.get_next_bits_to_encode (5 - left)).2 0 0 hrec (by omega)
      simp only [encodeFieldLoopF, if_pos hc]
      refine ⟨?_, this.2.1, by simp, fun _ => ?_⟩
      · simp only [List.length_cons]
        rw [get_next_num_bits] at this
        omega
      · rcases hempty : (encodeFieldLoopF fuel (d.get_next_bits_to_encode (5 - left)).2 0 0).1 with _ | _
        · have h3 := this.2.2.1 hempty
          rw [h3]
          exact ⟨rfl, rfl⟩
        · exact this.2.2.2 (by rw [hempty]; simp)
    · simp only [encodeFieldLoopF, if_neg hc, List.length_nil]
      refine ⟨by omega, by omega, ?_, ?_⟩ <;> simp

theorem encodeFieldLoop_count (d : EncodableData) (acc left : Nat) (hl : left ≤ 4) :
    5 * (encodeFieldLoop d acc left).1.length +
      (encodeFieldLoop d acc left).2.1.num_bits +
      (encodeFieldLoop d acc left).2.2.2 = d.num_bits + left ∧
    (encodeFieldLoop d acc left).2.1.num_bits +
      (encodeFieldLoop d acc left).2.2.2 < 5 ∧
    ((encodeFieldLoop d acc left).1 = [] →
      encodeFieldLoop d acc left = ([], d, acc, left)) ∧
    ((encodeFieldLoop d acc left).1 ≠ [] →
      (encodeFieldLoop d acc left).2.2.1 = 0 ∧
      (encodeFieldLoop d acc left).2.2.2 = 0) :=
  encodeFieldLoopF_count d.num_bits d acc left le_rfl hl

theorem encodeFields_count : ∀ (fs : List EncodableData) (acc left : Nat), left ≤ 4 →
    5 * (encodeFields fs acc left).1.length + (encodeFields fs acc left).2.2.2 =
      (fs.map EncodableData.num_bits).sum + left ∧
    (encodeFields fs acc left).2.2.2 ≤ 4 := by
  intro fs
  induction fs with
  | nil =>
    intro acc left hl
    exact ⟨by simp [encodeFields], by simpa [encodeFields] using hl⟩
  | cons d rest ih =>
    intro acc left hl
    have hloop := encodeFieldLoop_count d acc left hl
    have hleft2 : (encodeFieldLoop d acc left).2.2.2 +
        (encodeFieldLoop d acc left).2.1.num_bits ≤ 4 := by omega
    have hrest := ih ((encodeFieldLoop d acc left).2.2.1 |||
        (((((encodeFieldLoop d acc left).2.1.value <<<
          (5 - ((encodeFieldLoop d acc left).2.1.num_bits +
            (encodeFieldLoop d acc left).2.2.2))) % 2 ^ 64) &&& get_mask 5) % 2 ^ 8))
      ((encodeFieldLoop d acc left).2.2.2 + (encodeFieldLoop d acc left).2.1.num_bits)
      (by omega)
    simp only [encodeFields, List.map_cons, List.sum_cons, List.length_append]
    omega

/-- **C3.** `encode` output has exactly `⌈total_bits / 5⌉ = (total_bits + 4) / 5`
symbols, where `total_bits` is the sum of the fields' declared widths. -/
theorem encode_length (fields : List EncodableData)
    (hw : ∀ d ∈ fields, d.num_bits ≤ 64) :
    (Base32.encodeString fields).length =
      ((fields.map EncodableData.num_bits).sum + 4) / 5 := by
  have h := encodeFields_count fields 0 0 (by norm_num)
  have hstr : (Base32.encodeString fields).length = (Base32.encodeValues fields).length := by
    simp [Base32.encodeString, String.length]
  rw [hstr]
  unfold Base32.encodeValues
  by_cases hz : 0 < (encodeFields fields 0 0).2.2.2
  · rw [if_pos hz]
    simp only [List.length_append, List.length_cons, List.length_nil]
    omega
  · rw [if_neg hz]
    omega

/-- Witness for **C3**: the default 145-bit schema encodes to exactly
29 symbols, and the empty schema encodes to the empty string. -/
theorem encode_length_witness :
    (Base32.encodeString ClientRoutingLabel.default).length = 29 ∧
    Base32.encodeString [] = "" := by
  constructor
  · have := encode_length ClientRoutingLabel.default (by decide)
    simpa using this
  · decide

/-! ## C6: truncation of oversized values -/

theorem get_next_spec (v nb k : Nat) (hnb : nb ≤ 64) (hk : k ≤ 64) :
    EncodableData.get_next_bits_to_encode { value := v, num_bits := nb } k =
      ((v / 2 ^ (nb - k) % 2 ^ k) % 2 ^ 8,
       { value := v % 2 ^ (nb - k), num_bits := nb - k }) := by
  simp only [EncodableData.get_next_bits_to_encode]
  rw [get_mask_low_bits k hk, get_mask_low_bits (nb - k) (by omega), Nat.shiftLeft_eq,
    land_mask_mul, land_two_pow_sub_one, Nat.shiftRight_eq_div_pow,
    Nat.mul_div_cancel _ (Nat.two_pow_pos (nb - k))]

theorem encodeFieldLoop_trunc (v w acc left : Nat) (hw : w ≤ 64) (hl : left ≤ 4)
    (hrun : 5 - left ≤ w) :
    encodeFieldLoop { value := v % 2 ^ w, num_bits := w } acc left =
      encodeFieldLoop { value := v, num_bits := w } acc left := by
  have hbits : (v % 2 ^ w) / 2 ^ (w - (5 - left)) % 2 ^ (5 - left) =
      v / 2 ^ (w - (5 - left)) % 2 ^ (5 - left) := by
    have hsplit : (2 : Nat) ^ w = 2 ^ (w - (5 - left)) * 2 ^ (5 - left) := by
      rw [← pow_add]
      congr 1
      omega
    rw [hsplit, Nat.mod_mul_right_div_self, Nat.mod_mod_of_dvd _ dvd_rfl]
  have hval : (v % 2 ^ w) % 2 ^ (w - (5 - left)) = v % 2 ^ (w - (5 - left)) :=
    Nat.mod_mod_of_dvd v (pow_dvd_pow 2 (by omega))
  rw [encodeFieldLoop_eq, encodeFieldLoop_eq]
  rw [if_pos (⟨hrun, by omega⟩ :
      5 - left ≤ (EncodableData.mk (v % 2 ^ w) w).num_bits ∧ 0 < 5 - left),
    if_pos (⟨hrun, by omega⟩ :
      5 - left ≤ (EncodableData.mk v w).num_bits ∧ 0 < 5 - left)]
  simp only [get_next_spec _ _ _ hw (by omega : 5 - left ≤ 64), hbits, hval]

theorem encodeFields_trunc_head (v w : Nat) (rest : List EncodableData)
    (acc left : Nat) (hw : w ≤ 64) (hl : left ≤ 4)
    (hcase : left = 0 ∨ 5 ≤ w + left) :
    (encodeFields ({ value := v % 2 ^ w, num_bits := w } :: rest) acc left).1 =
      (encodeFields ({ value := v, num_bits := w } :: rest) acc left).1 ∧
    (encodeFields ({ value := v % 2 ^ w, num_bits := w } :: rest) acc left).2.2 =
      (encodeFields ({ value := v, num_bits := w } :: rest) acc left).2.2 := by
  by_cases hrun : 5 - left ≤ w
  · simp only [encodeFields, encodeFieldLoop_trunc v w acc left hw hl hrun]
    exact ⟨trivial, trivial⟩
  · have hleft0 : left = 0 := by omega
    have hw5 : w < 5 := by omega
    subst hleft0
    have hnoloop : ∀ u : Nat, encodeFieldLoop { value := u, num_bits := w } acc 0 =
        ([], { value := u, num_bits := w }, acc, 0) := by
      intro u
      rw [encodeFieldLoop_eq, if_neg]
      simp only [not_and]
      intro hle
      omega
    have h5 : (2 : Nat) ^ 5 = 2 ^ w * 2 ^ (5 - w) := by
      rw [← pow_add]
      congr 1
      omega
    have hF : ∀ u : Nat, (((u <<< (5 - (w + 0))) % 2 ^ 64) &&& get_mask 5) % 2 ^ 8 =
        u % 2 ^ w * 2 ^ (5 - w) := by
      intro u
      rw [Nat.add_zero, Nat.shiftLeft_eq, get_mask_low_bits 5 (by norm_num),
        land_two_pow_sub_one, Nat.mod_mod_of_dvd _ (pow_dvd_pow 2 (by norm_num : 5 ≤ 64)),
        h5, Nat.mul_mod_mul_right]
      have hlt : u % 2 ^ w * 2 ^ (5 - w) < 2 ^ w * 2 ^ (5 - w) :=
        (Nat.mul_lt_mul_right (Nat.two_pow_pos _)).mpr (Nat.mod_lt u (Nat.two_pow_pos w))
      rw [← h5] at hlt
      exact Nat.mod_eq_of_lt (lt_of_lt_of_le hlt (by norm_num))
    simp only [encodeFields, hnoloop, hF, Nat.mod_mod_of_dvd _ dvd_rfl]
    exact ⟨trivial, trivial⟩

theorem encodeFields_append : ∀ (fs1 fs2 : List EncodableData) (acc left : Nat),
    encodeFields (fs1 ++ fs2) acc left =
      ((encodeFields fs1 acc left).1 ++
        (encodeFields fs2 (encodeFields fs1 acc left).2.2.1
          (encodeFields fs1 acc left).2.2.2).1,
       (encodeFields fs1 acc left).2.1 ++
        (encodeFields fs2 (encodeFields fs1 acc left).2.2.1
          (encodeFields fs1 acc left).2.2.2).2.1,
       (encodeFields fs2 (encodeFields fs1 acc left).2.2.1
          (encodeFields fs1 acc left).2.2.2).2.2) := by
  intro fs1
  induction fs1 with
  | nil => intro fs2 acc left; simp [encodeFields]
  | cons d rest ih =>
    intro fs2 acc left
    simp only [List.cons_append, encodeFields, List.append_eq, ih, List.append_assoc]

/-- **C6 (amended).** Truncation law, in the positions where it holds: if the
field either starts at a symbol boundary (the widths before it sum to a
multiple of 5) or spans one (`5 ≤ w + leftover`), then encoding value `v` in
a `w`-bit field produces the same token as encoding `v & mask(w)`.  In
particular this covers every field of the 145-bit schema and any field
encoded alone.  (When leftover bits are carried *into* a field too narrow
to complete a symbol, oversized bits leak into the shared symbol — see the
counterexample.) -/
theorem encode_truncation_amended (fs1 fs2 : List EncodableData) (v w : Nat)
    (hw : w ≤ 64)
    (hcase : (fs1.map EncodableData.num_bits).sum % 5 = 0 ∨
      5 ≤ w + (fs1.map EncodableData.num_bits).sum % 5) :
    Base32.encodeString (fs1 ++ { value := v, num_bits := w } :: fs2) =
      Base32.encodeString (fs1 ++ { value := v &&& get_mask w, num_bits := w } :: fs2) := by
  rw [get_mask_low_bits w hw, land_two_pow_sub_one]
  have hcount := encodeFields_count fs1 0 0 (by norm_num)
  have hleft1 : (encodeFields fs1 0 0).2.2.2 =
      (fs1.map EncodableData.num_bits).sum % 5 := by omega
  have hstep := encodeFields_trunc_head v w fs2 (encodeFields fs1 0 0).2.2.1
    (encodeFields fs1 0 0).2.2.2 hw (by omega) (by omega)
  unfold Base32.encodeString Base32.encodeValues
  rw [encodeFields_append, encodeFields_append, hstep.1, hstep.2]

/-- **C6 counterexample.** As stated, for *every* position in a field list,
the truncation law is false: with a 1-bit field followed by a 2-bit field
holding the oversized value 4, the token is `"q"`, while truncating 4 to its
low 2 bits (0) gives `"a"` — the oversized bit leaks into the symbol shared
with the previous field. -/
theorem encode_truncation_counterexample :
    Base32.encodeString [{ value := 0, num_bits := 1 }, { value := 4, num_bits := 2 }] ≠
      Base32.encodeString [{ value := 0, num_bits := 1 },
        { value := 4 &&& get_mask 2, num_bits := 2 }] := by
  decide

/-- Witness for **C6**: the oversized value 100 in a 3-bit field preceded by
a full 5-bit field encodes exactly as its low 3 bits do. -/
theorem encode_truncation_amended_witness :
    Base32.encodeString [{ value := 1, num_bits := 5 }, { value := 100, num_bits := 3 }] =
      Base32.encodeString [{ value := 1, num_bits := 5 },
        { value := 100 &&& get_mask 3, num_bits := 3 }] :=
  encode_truncation_amended [{ value := 1, num_bits := 5 }] [] 100 3 (by norm_num)
    (Or.inl (by decide))

/-! ## C5: the end-to-end token -/

/-- **C5 counterexample.** With the subnet fingerprint whose big-endian bytes
are `[1,2,3,0,0,0,0,0]` (value `0x0102030000000000`), mask 24 and content
hash 8517775255794402596, the encoded token is
`"abacaqdaaaaaaaamhmnjxo5hdzrje"`, not the claimed
`"abfku6xaaaaaaaamhmnjxo5hdzrje"`. -/
theorem end_to_end_counterexample :
    ClientRoutingLabel.encode (ClientRoutingLabel.set_data ClientRoutingLabel.default
      { client_subnet := 0x0102030000000000, subnet_mask := 24, is_ipv6 := 0 }
      8517775255794402596) = "abacaqdaaaaaaaamhmnjxo5hdzrje" ∧
    ClientRoutingLabel.encode (ClientRoutingLabel.set_data ClientRoutingLabel.default
      { client_subnet := 0x0102030000000000, subnet_mask := 24, is_ipv6 := 0 }
      8517775255794402596) ≠ "abfku6xaaaaaaaamhmnjxo5hdzrje" ∧
    (0x0102030000000000 : Nat) = 1 * 2 ^ 56 + 2 * 2 ^ 48 + 3 * 2 ^ 40 := by
  decide

/-- **C5 (amended).** The token `"abfku6xaaaaaaaamhmnjxo5hdzrje"` is produced
by version 1, flag false, mask 24 and hash 8517775255794402596 together with
the subnet fingerprint 6148494311290830848, whose big-endian bytes are
`[85,83,215,0,0,0,0,0]` (the repository's own `85.83.215.126/24` example) —
not the fingerprint bytes `[1,2,3,0,0,0,0,0]` stated in the claim. -/
theorem end_to_end_token :
    ClientRoutingLabel.encode (ClientRoutingLabel.set_data ClientRoutingLabel.default
      { client_subnet := 6148494311290830848, subnet_mask := 24, is_ipv6 := 0 }
      8517775255794402596) = "abfku6xaaaaaaaamhmnjxo5hdzrje" ∧
    (6148494311290830848 : Nat) = 85 * 2 ^ 56 + 83 * 2 ^ 48 + 215 * 2 ^ 40 := by
  decide

/-! ## C1: round trip.  Encoder-side structure lemmas -/

theorem lor_mod_two_pow (a b n : Nat) :
    (a ||| b) % 2 ^ n = a % 2 ^ n ||| b % 2 ^ n := by
  apply Nat.eq_of_testBit_eq
  intro i
  simp only [Nat.testBit_mod_two_pow, Nat.testBit_lor]
  by_cases h : i < n <;> simp [h]

theorem lor_lt_two_pow {a b n : Nat} (ha : a < 2 ^ n) (hb : b < 2 ^ n) :
    a ||| b < 2 ^ n := by
  have h := lor_mod_two_pow a b n
  rw [Nat.mod_eq_of_lt ha, Nat.mod_eq_of_lt hb] at h
  rw [← h]
  exact Nat.mod_lt _ (Nat.two_pow_pos n)

theorem lor_eq_add_of_mod (x v k : Nat) (hx : x % 2 ^ k = 0) (hv : v < 2 ^ k) :
    x ||| v = x + v := by
  obtain ⟨q, rfl⟩ := Nat.dvd_of_mod_eq_zero hx
  have hs : (2 : Nat) ^ k * q = q <<< k := by
    rw [Nat.shiftLeft_eq]
    ring
  rw [hs, shiftLeft_lor_eq_add q k v hv, Nat.shiftLeft_eq]

/-- The token emitted from an intermediate encoder state: the remaining
chars of the field loop plus the final padding symbol.
`Base32.encodeValues fs = encodeTail fs 0 0`. -/
def encodeTail (fs : List EncodableData) (acc left : Nat) : List Nat :=
  (encodeFields fs acc left).1 ++
    (if 0 < (encodeFields fs acc left).2.2.2 then [(encodeFields fs acc left).2.2.1] else [])

theorem encodeValues_eq_encodeTail (fs : List EncodableData) :
    Base32.encodeValues fs = encodeTail fs 0 0 := by
  unfold Base32.encodeValues encodeTail
  by_cases h : 0 < (encodeFields fs 0 0).2.2.2 <;> simp [h]

theorem encodeTail_nil (acc left : Nat) :
    encodeTail [] acc left = if 0 < left then [acc] else [] := by
  unfold encodeTail encodeFields
  by_cases h : 0 < left <;> simp [h]

theorem encodeTail_cons (d : EncodableData) (fs : List EncodableData) (acc left : Nat) :
    encodeTail (d :: fs) acc left =
      (encodeFieldLoop d acc left).1 ++
        encodeTail fs
          ((encodeFieldLoop d acc left).2.2.1 |||
            ((((encodeFieldLoop d acc left).2.1.value <<<
                (5 - ((encodeFieldLoop d acc left).2.1.num_bits +
                  (encodeFieldLoop d acc left).2.2.2))) % 2 ^ 64) &&& get_mask 5) % 2 ^ 8)
          ((encodeFieldLoop d acc left).2.2.2 + (encodeFieldLoop d acc left).2.1.num_bits) := by
  unfold encodeTail
  simp only [encodeFields]
  rw [List.append_assoc]

theorem dvd_lt_le_sub {p x N : Nat} (hdvd : p ∣ x) (hdvdN : p ∣ N) (h : x < N) :
    x ≤ N - p := by
  obtain ⟨q, rfl⟩ := hdvd
  obtain ⟨Q, rfl⟩ := hdvdN
  rcases Nat.eq_zero_or_pos p with hp | hp
  · subst hp
    simp at h
  · have hq : q < Q := Nat.lt_of_mul_lt_mul_left h
    have hple : p * (q + 1) ≤ p * Q := Nat.mul_le_mul_left p (by omega)
    have hexp : p * (q + 1) = p * q + p := by ring
    omega

theorem two_pow_le_32 (left : Nat) : (2 : Nat) ^ (5 - left) ≤ 2 ^ 5 :=
  Nat.pow_le_pow_right (by norm_num) (by omega)

theorem add_mod_zero {n x y : Nat} (hx : x % n = 0) (hy : y % n = 0) :
    (x + y) % n = 0 := by
  obtain ⟨a, rfl⟩ := Nat.dvd_of_mod_eq_zero hx
  obtain ⟨b, rfl⟩ := Nat.dvd_of_mod_eq_zero hy
  rw [← Nat.mul_add]
  exact Nat.mul_mod_right _ _

theorem mod_pow_zero_of_le {s t x : Nat} (hst : s ≤ t) (hx : x % 2 ^ t = 0) :
    x % 2 ^ s = 0 := by
  obtain ⟨c, rfl⟩ := Nat.dvd_of_mod_eq_zero hx
  obtain ⟨e, he⟩ := pow_dvd_pow 2 hst
  rw [he, Nat.mul_assoc]
  exact Nat.mul_mod_right _ _

theorem encodeFieldLoop_run (x m b left : Nat) (hrun : 5 - left ≤ m) (hl : left ≤ 4)
    (hm : m ≤ 64) (hx : x < 2 ^ m) (hb : b + 2 ^ (5 - left) ≤ 2 ^ 8) :
    encodeFieldLoop { value := x, num_bits := m } b left =
      ((b + x / 2 ^ (m - (5 - left))) ::
        (encodeFieldLoop ⟨x % 2 ^ (m - (5 - left)), m - (5 - left)⟩ 0 0).1,
       (encodeFieldLoop ⟨x % 2 ^ (m - (5 - left)), m - (5 - left)⟩ 0 0).2) := by
  have hdiv : x / 2 ^ (m - (5 - left)) < 2 ^ (5 - left) := by
    rw [Nat.div_lt_iff_lt_mul (Nat.two_pow_pos _)]
    calc x < 2 ^ m := hx
    _ = 2 ^ (5 - left) * 2 ^ (m - (5 - left)) := by
      rw [← pow_add]
      congr 1
      omega
  rw [encodeFieldLoop_eq, if_pos (⟨hrun, by omega⟩ :
    5 - left ≤ (EncodableData.mk x m).num_bits ∧ 0 < 5 - left)]
  rw [get_next_spec x m (5 - left) hm (by omega)]
  have h1 : x / 2 ^ (m - (5 - left)) % 2 ^ (5 - left) % 2 ^ 8 =
      x / 2 ^ (m - (5 - left)) := by
    rw [Nat.mod_eq_of_lt hdiv]
    exact Nat.mod_eq_of_lt (lt_of_lt_of_le hdiv (by omega))
  simp only [h1]
  rw [Nat.mod_eq_of_lt (by omega : b + x / 2 ^ (m - (5 - left)) < 2 ^ 8)]

theorem encodeFieldLoop_noloop (x m b left : Nat) (hm : m < 5 - left) :
    encodeFieldLoop { value := x, num_bits := m } b left =
      ([], { value := x, num_bits := m }, b, left) := by
  rw [encodeFieldLoop_eq, if_neg]
  intro hc
  have h1 : 5 - left ≤ m := hc.1
  omega

theorem fold_eq (x m left : Nat) (hml : m + left < 5) (hx : x < 2 ^ m) :
    (((x <<< (5 - (m + left))) % 2 ^ 64) &&& get_mask 5) % 2 ^ 8 =
      x * 2 ^ (5 - (m + left)) := by
  rw [Nat.shiftLeft_eq, get_mask_low_bits 5 (by norm_num), land_two_pow_sub_one,
    Nat.mod_mod_of_dvd _ (pow_dvd_pow 2 (by norm_num : 5 ≤ 64))]
  have hlt : x * 2 ^ (5 - (m + left)) < 2 ^ 5 := by
    calc x * 2 ^ (5 - (m + left)) < 2 ^ m * 2 ^ (5 - (m + left)) :=
      (Nat.mul_lt_mul_right (Nat.two_pow_pos _)).mpr hx
    _ = 2 ^ (m + (5 - (m + left))) := by rw [pow_add]
    _ ≤ 2 ^ 5 := Nat.pow_le_pow_right (by norm_num) (by omega)
  rw [Nat.mod_eq_of_lt hlt, Nat.mod_eq_of_lt (lt_trans hlt (by norm_num))]

/-- `addHead a` adds `a` into the first symbol of a stream. -/
def addHead (a : Nat) : List Nat → List Nat
  | [] => []
  | c :: cs => (a + c) :: cs

theorem encodeTail_acc : ∀ (fs : List EncodableData) (a b left : Nat), left ≤ 4 →
    a % 2 ^ (5 - left) = 0 → b % 2 ^ (5 - left) = 0 → a + b < 2 ^ 5 →
    (∀ d ∈ fs, d.num_bits ≤ 64 ∧ d.value < 2 ^ d.num_bits) →
    encodeTail fs (a + b) left = addHead a (encodeTail fs b left) := by
  intro fs
  induction fs with
  | nil =>
    intro a b left hl ha hb hab hfit
    rw [encodeTail_nil, encodeTail_nil]
    by_cases h : 0 < left
    · simp [h, addHead]
    · have hl0 : left = 0 := by omega
      subst hl0
      have ha0 : a = 0 := by omega
      subst ha0
      simp [addHead]
  | cons d fs ih =>
    intro a b left hl ha hb hab hfit
    obtain ⟨hd64, hdfit⟩ := hfit d (by simp)
    have hfit' : ∀ e ∈ fs, e.num_bits ≤ 64 ∧ e.value < 2 ^ e.num_bits :=
      fun e he => hfit e (by simp [he])
    have habmod : (a + b) % 2 ^ (5 - left) = 0 := add_mod_zero ha hb
    have h32 : (2 : Nat) ^ (5 - left) ≤ 2 ^ 5 := two_pow_le_32 left
    have hdvd32 : (2 : Nat) ^ (5 - left) ∣ 2 ^ 5 := pow_dvd_pow 2 (by omega)
    have hablt : a + b ≤ 2 ^ 5 - 2 ^ (5 - left) :=
      dvd_lt_le_sub (Nat.dvd_of_mod_eq_zero habmod) hdvd32 hab
    have hpow_pos : (0 : Nat) < 2 ^ (5 - left) := Nat.two_pow_pos _
    by_cases hrun : 5 - left ≤ d.num_bits
    · have e1 := encodeFieldLoop_run d.value d.num_bits (a + b) left hrun hl hd64 hdfit
        (by omega)
      have e2 := encodeFieldLoop_run d.value d.num_bits b left hrun hl hd64 hdfit
        (by omega)
      rw [encodeTail_cons, encodeTail_cons]
      rw [show ({ value := d.value, num_bits := d.num_bits } : EncodableData) = d
        from rfl] at e1 e2
      rw [e1, e2]
      simp only [List.cons_append, addHead, Nat.add_assoc]
    · have hml : d.num_bits + left < 5 := by omega
      have e1 := encodeFieldLoop_noloop d.value d.num_bits (a + b) left (by omega)
      have e2 := encodeFieldLoop_noloop d.value d.num_bits b left (by omega)
      rw [encodeTail_cons, encodeTail_cons]
      rw [show ({ value := d.value, num_bits := d.num_bits } : EncodableData) = d
        from rfl] at e1 e2
      rw [e1, e2]
      simp only [List.nil_append]
      have hfold : (((d.value <<< (5 - (d.num_bits + left))) % 2 ^ 64) &&& get_mask 5) % 2 ^ 8 =
          d.value * 2 ^ (5 - (d.num_bits + left)) := fold_eq d.value d.num_bits left hml hdfit
      have hFlt : d.value * 2 ^ (5 - (d.num_bits + left)) < 2 ^ (5 - left) := by
        calc d.value * 2 ^ (5 - (d.num_bits + left)) <
            2 ^ d.num_bits * 2 ^ (5 - (d.num_bits + left)) :=
          (Nat.mul_lt_mul_right (Nat.two_pow_pos _)).mpr hdfit
        _ = 2 ^ (d.num_bits + (5 - (d.num_bits + left))) := by rw [pow_add]
        _ ≤ 2 ^ (5 - left) := Nat.pow_le_pow_right (by norm_num) (by omega)
      have hFmod : d.value * 2 ^ (5 - (d.num_bits + left)) % 2 ^ (5 - (left + d.num_bits)) = 0 := by
        rw [show 5 - (left + d.num_bits) = 5 - (d.num_bits + left) by omega]
        exact Nat.mul_mod_left _ _
      rw [hfold,
        lor_eq_add_of_mod (a + b) _ (5 - left) habmod hFlt,
        lor_eq_add_of_mod b _ (5 - left) hb hFlt]
      have hb' : (b + d.value * 2 ^ (5 - (d.num_bits + left))) % 2 ^ (5 - (left + d.num_bits)) = 0 :=
        add_mod_zero (mod_pow_zero_of_le (by omega) hb) hFmod
      have ha' : a % 2 ^ (5 - (left + d.num_bits)) = 0 :=
        mod_pow_zero_of_le (by omega) ha
      have := ih a (b + d.value * 2 ^ (5 - (d.num_bits + left))) (left + d.num_bits)
        (by omega) ha' hb' (by omega) hfit'
      rw [Nat.add_assoc, this]

theorem get_next_fst_lt (d : EncodableData) (k : Nat) (hk : k ≤ 64) :
    (d.get_next_bits_to_encode k).1 < 2 ^ k := by
  simp only [EncodableData.get_next_bits_to_encode]
  rw [get_mask_low_bits k hk, Nat.shiftLeft_eq, land_mask_mul,
    Nat.shiftRight_eq_div_pow, Nat.mul_div_cancel _ (Nat.two_pow_pos _)]
  exact lt_of_le_of_lt (Nat.mod_le _ _) (Nat.mod_lt _ (Nat.two_pow_pos k))

theorem encodeFieldLoopF_chars_lt : ∀ (fuel : Nat) (d : EncodableData) (acc left : Nat),
    left ≤ 4 → acc < 2 ^ 5 → acc % 2 ^ (5 - left) = 0 →
    ∀ c ∈ (encodeFieldLoopF fuel d acc left).1, c < 2 ^ 5 := by
  intro fuel
  induction fuel with
  | zero =>
    intro d acc left hl hacc hmod c hc
    simp [encodeFieldLoopF] at hc
  | succ fuel ih =>
    intro d acc left hl hacc hmod c hc
    by_cases hcond : 5 - left ≤ d.num_bits ∧ 0 < 5 - left
    · simp only [encodeFieldLoopF, if_pos hcond, List.mem_cons] at hc
      rcases hc with rfl | hc
      · have hb := get_next_fst_lt d (5 - left) (by omega)
        have h1 : acc ≤ 2 ^ 5 - 2 ^ (5 - left) :=
          dvd_lt_le_sub (Nat.dvd_of_mod_eq_zero hmod) (pow_dvd_pow 2 (by omega)) hacc
        have h32 := two_pow_le_32 left
        have hp := Nat.two_pow_pos (5 - left)
        calc (acc + (d.get_next_bits_to_encode (5 - left)).1) % 2 ^ 8 ≤
            acc + (d.get_next_bits_to_encode (5 - left)).1 := Nat.mod_le _ _
        _ < 2 ^ 5 := by omega
      · exact ih _ 0 0 (by norm_num) (by norm_num) (by norm_num) c hc
    · simp only [encodeFieldLoopF] at hc
      rw [if_neg hcond] at hc
      simp at hc

theorem encode_state_step (d : EncodableData) (acc left : Nat) (hl : left ≤ 4)
    (hacc : acc < 2 ^ 5) (hmod : acc % 2 ^ (5 - left) = 0) :
    ((encodeFieldLoop d acc left).2.2.1 |||
      ((((encodeFieldLoop d acc left).2.1.value <<<
        (5 - ((encodeFieldLoop d acc left).2.1.num_bits +
          (encodeFieldLoop d acc left).2.2.2))) % 2 ^ 64) &&& get_mask 5) % 2 ^ 8) < 2 ^ 5 ∧
    ((encodeFieldLoop d acc left).2.2.1 |||
      ((((encodeFieldLoop d acc left).2.1.value <<<
        (5 - ((encodeFieldLoop d acc left).2.1.num_bits +
          (encodeFieldLoop d acc left).2.2.2))) % 2 ^ 64) &&& get_mask 5) % 2 ^ 8) %
      2 ^ (5 - ((encodeFieldLoop d acc left).2.2.2 +
        (encodeFieldLoop d acc left).2.1.num_bits)) = 0 ∧
    (encodeFieldLoop d acc left).2.2.2 + (encodeFieldLoop d acc left).2.1.num_bits ≤ 4 := by
  have hcount := encodeFieldLoop_count d acc left hl
  set r := encodeFieldLoop d acc left with hr
  have hacc1 : r.2.2.1 < 2 ^ 5 ∧ r.2.2.1 % 2 ^ (5 - r.2.2.2) = 0 ∧ r.2.2.2 ≤ 4 := by
    rcases hempty : r.1 with _ | ⟨c, cs⟩
    · have h3 := hcount.2.2.1 hempty
      rw [h3]
      exact ⟨hacc, hmod, hl⟩
    · have h4 := hcount.2.2.2 (by rw [hempty]; simp)
      rw [h4.1, h4.2]
      norm_num
  set s := 5 - (r.2.1.num_bits + r.2.2.2) with hs
  set F := (((r.2.1.value <<< s) % 2 ^ 64) &&& get_mask 5) % 2 ^ 8 with hF
  have hF31 : F < 2 ^ 5 := by
    rw [hF]
    calc (((r.2.1.value <<< s) % 2 ^ 64) &&& get_mask 5) % 2 ^ 8 ≤
        ((r.2.1.value <<< s) % 2 ^ 64) &&& get_mask 5 := Nat.mod_le _ _
    _ ≤ get_mask 5 := Nat.and_le_right
    _ < 2 ^ 5 := by decide
  have hFmod : F % 2 ^ s = 0 := by
    have hs5 : s ≤ 5 := by omega
    rw [hF, get_mask_low_bits 5 (by norm_num), land_two_pow_sub_one,
      Nat.mod_mod_of_dvd _ (pow_dvd_pow 2 (by omega : s ≤ 8)),
      Nat.mod_mod_of_dvd _ (pow_dvd_pow 2 hs5),
      Nat.mod_mod_of_dvd _ (pow_dvd_pow 2 (by omega : s ≤ 64)),
      Nat.shiftLeft_eq]
    exact Nat.mul_mod_left _ _
  have hsum : 5 - (r.2.2.2 + r.2.1.num_bits) = s := by omega
  refine ⟨lor_lt_two_pow hacc1.1 hF31, ?_, by omega⟩
  rw [hsum, lor_mod_two_pow,
    mod_pow_zero_of_le (by omega : s ≤ 5 - r.2.2.2) hacc1.2.1, hFmod]
  decide

theorem encodeTail_chars_lt : ∀ (fs : List EncodableData) (acc left : Nat),
    left ≤ 4 → acc < 2 ^ 5 → acc % 2 ^ (5 - left) = 0 →
    ∀ c ∈ encodeTail fs acc left, c < 2 ^ 5 := by
  intro fs
  induction fs with
  | nil =>
    intro acc left hl hacc hmod c hc
    rw [encodeTail_nil] at hc
    by_cases h : 0 < left
    · rw [if_pos h] at hc
      simp at hc
      omega
    · rw [if_neg h] at hc
      simp at hc
  | cons d fs ih =>
    intro acc left hl hacc hmod c hc
    rw [encodeTail_cons] at hc
    rcases List.mem_append.mp hc with hc | hc
    · exact encodeFieldLoopF_chars_lt d.num_bits d acc left hl hacc hmod c hc
    · have hstate := encode_state_step d acc left hl hacc hmod
      exact ih _ _ (hstate.2.2) hstate.1 hstate.2.1 c hc

theorem encodeTail_head_lt : ∀ (fs : List EncodableData) (acc left B : Nat),
    left ≤ 4 → 5 - left ≤ B → B ≤ 5 → acc < 2 ^ B → acc % 2 ^ (5 - left) = 0 →
    (∀ d ∈ fs, d.num_bits ≤ 64 ∧ d.value < 2 ^ d.num_bits) →
    ∀ c cs, encodeTail fs acc left = c :: cs → c < 2 ^ B := by
  intro fs
  induction fs with
  | nil =>
    intro acc left B hl hlB hB5 hacc hmod hfit c cs hc
    rw [encodeTail_nil] at hc
    by_cases h : 0 < left
    · rw [if_pos h] at hc
      cases hc
      exact hacc
    · rw [if_neg h] at hc
      cases hc
  | cons d fs ih =>
    intro acc left B hl hlB hB5 hacc hmod hfit c cs hc
    obtain ⟨hd64, hdfit⟩ := hfit d (by simp)
    have hfit' : ∀ e ∈ fs, e.num_bits ≤ 64 ∧ e.value < 2 ^ e.num_bits :=
      fun e he => hfit e (by simp [he])
    have haccle : acc ≤ 2 ^ B - 2 ^ (5 - left) :=
      dvd_lt_le_sub (Nat.dvd_of_mod_eq_zero hmod) (pow_dvd_pow 2 (by omega)) hacc
    have hpowle : (2 : Nat) ^ (5 - left) ≤ 2 ^ B := Nat.pow_le_pow_right (by norm_num) hlB
    rw [encodeTail_cons] at hc
    by_cases hrun : 5 - left ≤ d.num_bits
    · have hble : acc + 2 ^ (5 - left) ≤ 2 ^ 8 := by
        have h1 : (2 : Nat) ^ B ≤ 2 ^ 5 := Nat.pow_le_pow_right (by norm_num) hB5
        have hp := Nat.two_pow_pos (5 - left)
        omega
      have e1 := encodeFieldLoop_run d.value d.num_bits acc left hrun hl hd64 hdfit hble
      rw [show ({ value := d.value, num_bits := d.num_bits } : EncodableData) = d
        from rfl] at e1
      rw [e1] at hc
      simp only [List.cons_append, List.cons.injEq] at hc
      have hdivlt : d.value / 2 ^ (d.num_bits - (5 - left)) < 2 ^ (5 - left) := by
        rw [Nat.div_lt_iff_lt_mul (Nat.two_pow_pos _)]
        calc d.value < 2 ^ d.num_bits := hdfit
        _ = 2 ^ (5 - left) * 2 ^ (d.num_bits - (5 - left)) := by
          rw [← pow_add]
          congr 1
          omega
      have h32 := two_pow_le_32 left
      have hp := Nat.two_pow_pos (5 - left)
      have hB32 : (2 : Nat) ^ B ≤ 2 ^ 5 := Nat.pow_le_pow_right (by norm_num) hB5
      omega
    · have e1 := encodeFieldLoop_noloop d.value d.num_bits acc left (by omega)
      rw [show ({ value := d.value, num_bits := d.num_bits } : EncodableData) = d
        from rfl] at e1
      rw [e1] at hc
      simp only [List.nil_append] at hc
      have hml : d.num_bits + left < 5 := by omega
      have hfold : (((d.value <<< (5 - (d.num_bits + left))) % 2 ^ 64) &&& get_mask 5) % 2 ^ 8 =
          d.value * 2 ^ (5 - (d.num_bits + left)) := fold_eq d.value d.num_bits left hml hdfit
      have hFlt : d.value * 2 ^ (5 - (d.num_bits + left)) < 2 ^ (5 - left) := by
        calc d.value * 2 ^ (5 - (d.num_bits + left)) <
            2 ^ d.num_bits * 2 ^ (5 - (d.num_bits + left)) :=
          (Nat.mul_lt_mul_right (Nat.two_pow_pos _)).mpr hdfit
        _ = 2 ^ (d.num_bits + (5 - (d.num_bits + left))) := by rw [pow_add]
        _ ≤ 2 ^ (5 - left) := Nat.pow_le_pow_right (by norm_num) (by omega)
      have hFmod : d.value * 2 ^ (5 - (d.num_bits + left)) % 2 ^ (5 - (left + d.num_bits)) = 0 := by
        rw [show 5 - (left + d.num_bits) = 5 - (d.num_bits + left) by omega]
        exact Nat.mul_mod_left _ _
      rw [hfold, lor_eq_add_of_mod acc _ (5 - left) hmod hFlt] at hc
      refine ih (acc + d.value * 2 ^ (5 - (d.num_bits + left))) (left + d.num_bits) B
        (by omega) (by omega) hB5 ?_ ?_ hfit' c cs hc
      · have hp := Nat.two_pow_pos (5 - left)
        omega
      · exact add_mod_zero (mod_pow_zero_of_le (by omega) hmod) hFmod

/-! ## C1: round trip.  Decoder-side coupling -/

theorem getD_of_drop (lv : List Nat) (idx c : Nat) (rest : List Nat)
    (h : lv.drop idx = c :: rest) : lv.getD idx 0 = c := by
  have h0 : (lv.drop idx).getD 0 0 = c := by
    rw [h]
    rfl
  rw [← h0, List.getD_eq_getElem?_getD, List.getD_eq_getElem?_getD,
    List.getElem?_drop, Nat.add_zero]

theorem drop_succ_of_drop (lv : List Nat) (idx c : Nat) (rest : List Nat)
    (h : lv.drop idx = c :: rest) : lv.drop (idx + 1) = rest := by
  rw [← List.tail_drop, h]
  rfl

theorem set_drop_head (lv : List Nat) (idx a c : Nat) (rest : List Nat)
    (h : lv.drop idx = c :: rest) : (lv.set idx a).drop idx = a :: rest := by
  rw [List.drop_set, if_neg (lt_irrefl idx), Nat.sub_self, h]
  rfl

theorem encode_step_run (x m left : Nat) (fsE : List EncodableData) (hrun : 5 - left ≤ m)
    (hl : left ≤ 4) (hm : m ≤ 64) (hx : x < 2 ^ m) :
    encodeTail ({ value := x, num_bits := m } :: fsE) 0 left =
      x / 2 ^ (m - (5 - left)) ::
        encodeTail (⟨x % 2 ^ (m - (5 - left)), m - (5 - left)⟩ :: fsE) 0 0 := by
  have hp := Nat.two_pow_pos (5 - left)
  have h32 := two_pow_le_32 left
  rw [encodeTail_cons, encodeTail_cons,
    encodeFieldLoop_run x m 0 left hrun hl hm hx (by omega)]
  simp

theorem add_bits_full (u m k v : Nat) (hvk : v < 2 ^ k)
    (hmul : u * 2 ^ k < 2 ^ 64) :
    EncodableData.add_bits { value := u, num_bits := m } k v =
      { value := u * 2 ^ k + v, num_bits := m - k } := by
  simp only [EncodableData.add_bits]
  rw [Nat.shiftLeft_eq, Nat.mod_eq_of_lt hmul,
    lor_eq_add_of_mod _ v k (Nat.mul_mod_left _ _) hvk]

theorem div_reassemble (x a b : Nat) (hab : b ≤ a) :
    x / 2 ^ a * 2 ^ (a - b) + x % 2 ^ a / 2 ^ b = x / 2 ^ b := by
  have h1 : x % 2 ^ a / 2 ^ b = x / 2 ^ b % 2 ^ (a - b) := by
    rw [show (2 : Nat) ^ a = 2 ^ b * 2 ^ (a - b) from by
      rw [← pow_add]
      congr 1
      omega]
    exact Nat.mod_mul_right_div_self x _ _
  have h2 : x / 2 ^ a = x / 2 ^ b / 2 ^ (a - b) := by
    rw [Nat.div_div_eq_div_mul, ← pow_add]
    congr 2
    omega
  rw [h1, h2, Nat.mul_comm]
  exact Nat.div_add_mod _ _

/-- The width a field retains when the decode `while` loop exits (equal, by
construction, to what the encode `while` loop leaves in the field). -/
def residualBits (m left : Nat) : Nat :=
  if 5 - left ≤ m then (m + left) % 5 else m

/-- The number of leftover bits after a field ends, from the decoder's
viewpoint (`num_bits_in_char` is `5 - residualLeft`). -/
def residualLeft (m left : Nat) : Nat :=
  if 5 - left ≤ m then 0 else left

theorem residual_peel (m left : Nat) (hrun : 5 - left ≤ m) (hl : left ≤ 4) :
    residualBits (m - (5 - left)) 0 = residualBits m left ∧
    residualLeft (m - (5 - left)) 0 = residualLeft m left ∧
    (m - (5 - left) + 0) / 5 + 1 = (m + left) / 5 := by
  unfold residualBits residualLeft
  by_cases h5 : 5 - 0 ≤ m - (5 - left)
  · rw [if_pos h5, if_pos h5, if_pos hrun, if_pos hrun]
    refine ⟨by omega, rfl, by omega⟩
  · rw [if_neg h5, if_neg h5, if_pos hrun, if_pos hrun]
    refine ⟨by omega, rfl, by omega⟩

theorem decodeFieldLoopF_couple : ∀ (fuel m u x left : Nat) (fsE : List EncodableData)
    (lv : List Nat) (idx : Nat),
    m ≤ fuel → left ≤ 4 → m ≤ 64 → x < 2 ^ m → u < 2 ^ (64 - m) →
    lv.drop idx = encodeTail ({ value := x, num_bits := m } :: fsE) 0 left →
    decodeFieldLoopF fuel { value := u, num_bits := m } lv idx (5 - left) =
      ({ value := u * 2 ^ (m - residualBits m left) + x / 2 ^ residualBits m left,
         num_bits := residualBits m left },
       idx + (m + left) / 5, 5 - residualLeft m left) ∧
    lv.drop (idx + (m + left) / 5) =
      encodeTail ({ value := x % 2 ^ residualBits m left,
                    num_bits := residualBits m left } :: fsE) 0 (residualLeft m left) := by
  intro fuel
  induction fuel with
  | zero =>
    intro m u x left fsE lv idx hf hl hm hx hu hstream
    have hm0 : m = 0 := by omega
    subst hm0
    have hx0 : x = 0 := by omega
    subst hx0
    have hrb : residualBits 0 left = 0 := by
      unfold residualBits
      rw [if_neg (by omega)]
    have hrl : residualLeft 0 left = left := by
      unfold residualLeft
      rw [if_neg (by omega)]
    rw [hrb, hrl]
    have hdiv5 : (0 + left) / 5 = 0 := by omega
    rw [hdiv5, Nat.add_zero]
    refine ⟨?_, by simpa using hstream⟩
    simp only [decodeFieldLoopF]
    norm_num
  | succ fuel ih =>
    intro m u x left fsE lv idx hf hl hm hx hu hstream
    by_cases hrun : 5 - left ≤ m
    · have hkpos : 0 < 5 - left := by omega
      have hpeel := encode_step_run x m left fsE hrun hl hm hx
      rw [hpeel] at hstream
      have hhead : lv.getD idx 0 = x / 2 ^ (m - (5 - left)) :=
        getD_of_drop lv idx _ _ hstream
      have hdrop1 : lv.drop (idx + 1) =
          encodeTail (⟨x % 2 ^ (m - (5 - left)), m - (5 - left)⟩ :: fsE) 0 0 :=
        drop_succ_of_drop lv idx _ _ hstream
      have hdivlt : x / 2 ^ (m - (5 - left)) < 2 ^ (5 - left) := by
        rw [Nat.div_lt_iff_lt_mul (Nat.two_pow_pos _)]
        calc x < 2 ^ m := hx
        _ = 2 ^ (5 - left) * 2 ^ (m - (5 - left)) := by
          rw [← pow_add]
          congr 1
          omega
      have hmul : u * 2 ^ (5 - left) < 2 ^ 64 := by
        calc u * 2 ^ (5 - left) < 2 ^ (64 - m) * 2 ^ (5 - left) :=
          (Nat.mul_lt_mul_right (Nat.two_pow_pos _)).mpr hu
        _ = 2 ^ (64 - m + (5 - left)) := by rw [pow_add]
        _ ≤ 2 ^ 64 := Nat.pow_le_pow_right (by norm_num) (by omega)
      simp only [decodeFieldLoopF]
      rw [if_pos (⟨hrun, hkpos⟩ :
        5 - left ≤ (EncodableData.mk u m).num_bits ∧ 0 < 5 - left)]
      rw [hhead, add_bits_full u m (5 - left) (x / 2 ^ (m - (5 - left))) hdivlt hmul]
      have hu' : u * 2 ^ (5 - left) + x / 2 ^ (m - (5 - left)) <
          2 ^ (64 - (m - (5 - left))) := by
        have he : (2 : Nat) ^ (64 - (m - (5 - left))) =
            2 ^ (64 - m) * 2 ^ (5 - left) := by
          rw [← pow_add]
          congr 1
          omega
        rw [he]
        have h1 : u + 1 ≤ 2 ^ (64 - m) := hu
        calc u * 2 ^ (5 - left) + x / 2 ^ (m - (5 - left)) <
            u * 2 ^ (5 - left) + 2 ^ (5 - left) := by omega
        _ = (u + 1) * 2 ^ (5 - left) := by ring
        _ ≤ 2 ^ (64 - m) * 2 ^ (5 - left) :=
          Nat.mul_le_mul_right _ hu
      have hih := ih (m - (5 - left)) (u * 2 ^ (5 - left) + x / 2 ^ (m - (5 - left)))
        (x % 2 ^ (m - (5 - left))) 0 fsE lv (idx + 1) (by omega) (by norm_num)
        (by omega) (Nat.mod_lt x (Nat.two_pow_pos _)) hu' hdrop1
      obtain ⟨hres, hstr⟩ := hih
      obtain ⟨hrb, hrl, hdiv5⟩ := residual_peel m left hrun hl
      have hmR_le : residualBits m left ≤ m - (5 - left) := by
        rw [← hrb]
        unfold residualBits
        by_cases h5 : 5 - 0 ≤ m - (5 - left)
        · rw [if_pos h5]
          omega
        · rw [if_neg h5]
      have hidx : idx + 1 + (m - (5 - left) + 0) / 5 = idx + (m + left) / 5 := by
        omega
      constructor
      · rw [hres, hrb, hrl, hidx]
        have hval : (u * 2 ^ (5 - left) + x / 2 ^ (m - (5 - left))) *
            2 ^ (m - (5 - left) - residualBits m left) +
            x % 2 ^ (m - (5 - left)) / 2 ^ residualBits m left =
            u * 2 ^ (m - residualBits m left) + x / 2 ^ residualBits m left := by
          rw [Nat.add_mul, Nat.mul_assoc, ← pow_add,
            show 5 - left + (m - (5 - left) - residualBits m left) =
              m - residualBits m left from by omega,
            Nat.add_assoc,
            div_reassemble x (m - (5 - left)) (residualBits m left) hmR_le]
        rw [hval]
      · rw [hidx] at hstr
        rw [hstr, hrb, hrl]
        rw [Nat.mod_mod_of_dvd x (pow_dvd_pow 2 (by rw [← hrb] at hmR_le ⊢; exact hmR_le))]
    · have hnb : residualBits m left = m := by
        unfold residualBits
        rw [if_neg hrun]
      have hnl : residualLeft m left = left := by
        unfold residualLeft
        rw [if_neg hrun]
      have hml5 : m + left < 5 := by omega
      have hdiv5 : (m + left) / 5 = 0 := by omega
      rw [hnb, hnl, hdiv5, Nat.add_zero]
      constructor
      · simp only [decodeFieldLoopF]
        rw [if_neg (fun hc : 5 - left ≤ (EncodableData.mk u m).num_bits ∧ 0 < 5 - left =>
          hrun hc.1)]
        have h1 : u * 2 ^ (m - m) + x / 2 ^ m = u := by
          rw [Nat.sub_self, pow_zero, Nat.mul_one, Nat.div_eq_of_lt hx, Nat.add_zero]
        rw [h1, Nat.add_zero]
      · rw [Nat.mod_eq_of_lt hx]
        exact hstream

theorem residual_facts (m left : Nat) (hl : left ≤ 4) :
    residualBits m left + residualLeft m left < 5 ∧
    residualLeft m left + residualBits m left = (left + m) % 5 ∧
    residualBits m left ≤ m ∧ residualLeft m left ≤ left := by
  unfold residualBits residualLeft
  by_cases h : 5 - left ≤ m
  · rw [if_pos h, if_pos h]
    refine ⟨by omega, by omega, by omega, by omega⟩
  · rw [if_neg h, if_neg h]
    refine ⟨by omega, by omega, by omega, by omega⟩

theorem encodeTail_noloop_cons (x m left : Nat) (fsE : List EncodableData)
    (hml : m + left < 5) (hx : x < 2 ^ m) :
    encodeTail ({ value := x, num_bits := m } :: fsE) 0 left =
      encodeTail fsE (x * 2 ^ (5 - (m + left))) (left + m) := by
  rw [encodeTail_cons, encodeFieldLoop_noloop x m 0 left (by omega)]
  simp only [List.nil_append]
  rw [fold_eq x m left hml hx, Nat.zero_or]

theorem encodeTail_zero_cons (fsE : List EncodableData) (left : Nat) (hl : left ≤ 4) :
    encodeTail ({ value := 0, num_bits := 0 } :: fsE) 0 left =
      encodeTail fsE 0 left := by
  rw [encodeTail_noloop_cons 0 0 left fsE (by omega) (by norm_num)]
  simp

theorem encodeTail_ne_nil (fs : List EncodableData) (acc left : Nat)
    (hleft : 0 < left) (hl : left ≤ 4) : encodeTail fs acc left ≠ [] := by
  unfold encodeTail
  intro h
  rcases List.append_eq_nil.mp h with ⟨h1, h2⟩
  have hcount := encodeFields_count fs acc left hl
  have hlen : (encodeFields fs acc left).1.length = 0 := by rw [h1]; rfl
  by_cases hz : 0 < (encodeFields fs acc left).2.2.2
  · rw [if_pos hz] at h2
    cases h2
  · omega

theorem decodeField_couple (v w left stale : Nat) (fsE : List EncodableData)
    (lv : List Nat) (idx : Nat)
    (hw : w ≤ 64) (hv : v < 2 ^ w) (hl : left ≤ 4)
    (hfsE : ∀ d ∈ fsE, d.num_bits ≤ 64 ∧ d.value < 2 ^ d.num_bits)
    (hstream : lv.drop idx = encodeTail ({ value := v, num_bits := w } :: fsE) 0 left) :
    ∃ lv' : List Nat,
      decodeField { value := stale, num_bits := w } lv idx (5 - left) =
        ({ value := v, num_bits := w }, lv', idx + (w + left) / 5,
         5 - (left + w) % 5) ∧
      lv'.drop (idx + (w + left) / 5) = encodeTail fsE 0 ((left + w) % 5) := by
  have hcouple := decodeFieldLoopF_couple w w 0 v left fsE lv idx le_rfl hl hw hv
    (Nat.two_pow_pos _) hstream
  obtain ⟨hres, hstr⟩ := hcouple
  obtain ⟨hsum5, hsum, hmle, hlle⟩ := residual_facts w left hl
  set mR := residualBits w left with hmR
  set leftR := residualLeft w left with hleftR
  have hzm : (0 : Nat) * 2 ^ (w - mR) + v / 2 ^ mR = v / 2 ^ mR := by
    rw [Nat.zero_mul, Nat.zero_add]
  rw [hzm] at hres
  simp only [decodeField, decodeFieldLoop]
  rw [hres]
  dsimp only
  by_cases hmR0 : 0 < mR
  · rw [if_pos hmR0]
    have hleft2 : 0 < leftR + mR := by omega
    have hleft2le : leftR + mR ≤ 4 := by omega
    have hxRlt : v % 2 ^ mR < 2 ^ mR := Nat.mod_lt v (Nat.two_pow_pos _)
    have hunf : encodeTail ({ value := v % 2 ^ mR, num_bits := mR } :: fsE) 0 leftR =
        encodeTail fsE (v % 2 ^ mR * 2 ^ (5 - (mR + leftR))) (leftR + mR) :=
      encodeTail_noloop_cons _ _ _ _ (by omega) hxRlt
    rw [hunf] at hstr
    have hne : encodeTail fsE 0 (leftR + mR) ≠ [] :=
      encodeTail_ne_nil fsE 0 (leftR + mR) hleft2 hleft2le
    rcases hhead : encodeTail fsE 0 (leftR + mR) with _ | ⟨c0, cs0⟩
    · exact absurd hhead hne
    have hc0lt : c0 < 2 ^ (5 - (leftR + mR)) :=
      encodeTail_head_lt fsE 0 (leftR + mR) (5 - (leftR + mR)) hleft2le le_rfl
        (by omega) (Nat.two_pow_pos _) (by simp) hfsE c0 cs0 hhead
    have hAmod : v % 2 ^ mR * 2 ^ (5 - (mR + leftR)) % 2 ^ (5 - (leftR + mR)) = 0 := by
      rw [show 5 - (leftR + mR) = 5 - (mR + leftR) from by omega]
      exact Nat.mul_mod_left _ _
    have hAlt : v % 2 ^ mR * 2 ^ (5 - (mR + leftR)) < 2 ^ (5 - leftR) := by
      calc v % 2 ^ mR * 2 ^ (5 - (mR + leftR)) <
          2 ^ mR * 2 ^ (5 - (mR + leftR)) :=
        (Nat.mul_lt_mul_right (Nat.two_pow_pos _)).mpr hxRlt
      _ = 2 ^ (mR + (5 - (mR + leftR))) := by rw [pow_add]
      _ ≤ 2 ^ (5 - leftR) := Nat.pow_le_pow_right (by norm_num) (by omega)
    have h32R : (2 : Nat) ^ (5 - leftR) ≤ 2 ^ 5 := Nat.pow_le_pow_right (by norm_num) (by omega)
    have hacc := encodeTail_acc fsE (v % 2 ^ mR * 2 ^ (5 - (mR + leftR))) 0 (leftR + mR)
      hleft2le hAmod (by simp) (by omega) hfsE
    rw [Nat.add_zero] at hacc
    rw [hacc, hhead] at hstr
    simp only [addHead] at hstr
    set A := v % 2 ^ mR * 2 ^ (5 - (mR + leftR)) with hA
    have hgetD : lv.getD (idx + (w + left) / 5) 0 = A + c0 :=
      getD_of_drop _ _ _ _ hstr
    rw [hgetD]
    have hnbic2 : 5 - leftR - mR = 5 - (mR + leftR) := by omega
    have hshift : (A + c0) >>> (5 - leftR - mR) = v % 2 ^ mR := by
      rw [hnbic2, Nat.shiftRight_eq_div_pow, hA, Nat.add_comm,
        Nat.add_mul_div_right _ _ (Nat.two_pow_pos _),
        Nat.div_eq_of_lt (show c0 < 2 ^ (5 - (mR + leftR)) from by
          rw [show 5 - (mR + leftR) = 5 - (leftR + mR) from by omega]
          exact hc0lt),
        Nat.zero_add]
    rw [hshift]
    have hdmul : v / 2 ^ mR * 2 ^ mR < 2 ^ 64 :=
      lt_of_le_of_lt (Nat.div_mul_le_self v _)
        (lt_of_lt_of_le hv (Nat.pow_le_pow_right (by norm_num) hw))
    rw [add_bits_full (v / 2 ^ mR) mR mR (v % 2 ^ mR) hxRlt hdmul]
    dsimp only
    have hvre : v / 2 ^ mR * 2 ^ mR + v % 2 ^ mR = v := Nat.div_add_mod' v _
    have hgm : get_mask (5 - leftR - mR) % 2 ^ 8 = 2 ^ (5 - (leftR + mR)) - 1 := by
      rw [hnbic2, show 5 - (mR + leftR) = 5 - (leftR + mR) from by omega,
        get_mask_low_bits (5 - (leftR + mR)) (by omega)]
      exact Nat.mod_eq_of_lt (lt_of_le_of_lt (Nat.sub_le _ _)
        (lt_of_le_of_lt (Nat.pow_le_pow_right (by norm_num) (by omega : 5 - (leftR + mR) ≤ 5))
          (by norm_num : (2 : Nat) ^ 5 < 2 ^ 8)))
    have hmask : (A + c0) &&& (get_mask (5 - leftR - mR) % 2 ^ 8) = c0 := by
      rw [hgm, land_two_pow_sub_one, hA,
        show 5 - (mR + leftR) = 5 - (leftR + mR) from by omega,
        Nat.add_comm (v % 2 ^ mR * 2 ^ (5 - (leftR + mR))) c0,
        Nat.add_mul_mod_self_right]
      exact Nat.mod_eq_of_lt hc0lt
    refine ⟨lv.set (idx + (w + left) / 5) c0, ?_, ?_⟩
    · rw [hmask, hvre]
      have hn2 : 5 - leftR - mR = 5 - (left + w) % 5 := by omega
      rw [hn2]
    · rw [set_drop_head lv _ c0 (A + c0) cs0 hstr,
        show (left + w) % 5 = leftR + mR from hsum.symm, hhead]
  · have hmR0' : mR = 0 := by omega
    rw [if_neg hmR0]
    refine ⟨lv, ?_, ?_⟩
    · have h1 : v / 2 ^ mR = v := by
        rw [hmR0', pow_zero, Nat.div_one]
      have h2 : 5 - leftR = 5 - (left + w) % 5 := by omega
      rw [h1, h2]
    · rw [hstr, hmR0', show (left + w) % 5 = leftR from by omega]
      have h3 : v % 2 ^ 0 = 0 := by
        rw [pow_zero, Nat.mod_one]
      rw [h3]
      exact encodeTail_zero_cons fsE leftR (by omega)

theorem decodeField_couple' (d : EncodableData) (left : Nat) (fsE : List EncodableData)
    (lv : List Nat) (idx : Nat)
    (hw : d.num_bits ≤ 64) (hv : d.value < 2 ^ d.num_bits) (hl : left ≤ 4)
    (hfsE : ∀ e ∈ fsE, e.num_bits ≤ 64 ∧ e.value < 2 ^ e.num_bits)
    (hstream : lv.drop idx = encodeTail (d :: fsE) 0 left) :
    ∃ lv' : List Nat,
      decodeField d lv idx (5 - left) =
        (d, lv', idx + (d.num_bits + left) / 5, 5 - (left + d.num_bits) % 5) ∧
      lv'.drop (idx + (d.num_bits + left) / 5) =
        encodeTail fsE 0 ((left + d.num_bits) % 5) := by
  obtain ⟨lv', h1, h2⟩ := decodeField_couple d.value d.num_bits left d.value fsE lv idx
    hw hv hl hfsE hstream
  exact ⟨lv', h1, h2⟩

theorem decodeFields_couple : ∀ (fs : List EncodableData) (lv : List Nat) (idx left : Nat),
    (∀ d ∈ fs, d.num_bits ≤ 64 ∧ d.value < 2 ^ d.num_bits) → left ≤ 4 →
    lv.drop idx = encodeTail fs 0 left →
    (decodeFields fs lv idx (5 - left)).1 = fs := by
  intro fs
  induction fs with
  | nil => intro lv idx left hfit hl hstream; rfl
  | cons d fs ih =>
    intro lv idx left hfit hl hstream
    obtain ⟨hd64, hdfit⟩ := hfit d (by simp)
    have hfit' : ∀ e ∈ fs, e.num_bits ≤ 64 ∧ e.value < 2 ^ e.num_bits :=
      fun e he => hfit e (by simp [he])
    obtain ⟨lv', h1, h2⟩ := decodeField_couple' d left fs lv idx hd64 hdfit hl hfit' hstream
    simp only [decodeFields]
    rw [h1]
    dsimp only
    have hmod5 : (left + d.num_bits) % 5 ≤ 4 := by omega
    have := ih lv' (idx + (d.num_bits + left) / 5) ((left + d.num_bits) % 5) hfit' hmod5 h2
    rw [this]

theorem char_toNat_ofNat (n : Nat) (h : n < 128) : (Char.ofNat n).toNat = n := by
  unfold Char.ofNat Char.toNat
  split
  · rfl
  · next hh => exact absurd (by omega : Nat.isValidChar n) hh

theorem alphabet_getD_lt (v : Nat) : BASE32_ALPHABET.getD v 0 < 128 := by
  by_cases h : v < 32
  · revert h
    revert v
    decide
  · rw [List.getD_eq_getElem?_getD, List.getElem?_eq_none (by
      rw [show BASE32_ALPHABET.length = 32 from rfl]
      omega)]
    norm_num

theorem charValue_alphabet : ∀ v, v < 32 → charValue (BASE32_ALPHABET.getD v 0) = v := by
  decide

theorem map_alphabet_charValue (vs : List Nat) (hvs : ∀ c ∈ vs, c < 32) :
    ((vs.map (fun v => Char.ofNat (BASE32_ALPHABET.getD v 0))).map Char.toNat).map charValue
      = vs := by
  induction vs with
  | nil => rfl
  | cons v vs ih =>
    have hv : v < 32 := hvs v (by simp)
    simp only [List.map_cons, List.cons.injEq]
    refine ⟨?_, ih (fun c hc => hvs c (by simp [hc]))⟩
    rw [char_toNat_ofNat _ (alphabet_getD_lt v)]
    exact charValue_alphabet v hv

/-- **C1 counterexample.** As stated over *every* list of fields the round
trip is false: for a 252-bit schema of four 63-bit fields (values fitting
their widths), `encode` emits its 51 symbols but `decode` rejects them,
because `is_valid_client_routing_label` computes the expected length in
`u8`, where `total_num_bits + 5` wraps and the expected count comes out 0 —
so `decode(encode(fields))` is a length-mismatch error, not the fields. -/
theorem decode_encode_roundtrip_counterexample :
    (∀ d ∈ ([{ value := 0, num_bits := 63 }, { value := 0, num_bits := 63 },
             { value := 0, num_bits := 63 }, { value := 0, num_bits := 63 }] :
        List EncodableData), d.num_bits ≤ 64 ∧ d.value < 2 ^ d.num_bits) ∧
    Base32.decode
      [{ value := 0, num_bits := 63 }, { value := 0, num_bits := 63 },
       { value := 0, num_bits := 63 }, { value := 0, num_bits := 63 }]
      ((Base32.encodeString
        [{ value := 0, num_bits := 63 }, { value := 0, num_bits := 63 },
         { value := 0, num_bits := 63 }, { value := 0, num_bits := 63 }]).data.map
        Char.toNat)
      (([{ value := 0, num_bits := 63 }, { value := 0, num_bits := 63 },
         { value := 0, num_bits := 63 }, { value := 0, num_bits := 63 }].map
        EncodableData.num_bits).sum) =
      .error { num_chars := 51, expected_num_chars := 0 } := by
  decide

/-- **C1 (amended).** Round trip: for every list of fields whose values fit
their declared widths (each at most 64 bits) and whose total width fits the
`u8` length arithmetic (`≤ 251` bits — the 145-bit schema qualifies),
decoding the token produced by `encode` against the same field widths
restores exactly the original field values.  Beyond 251 total bits the `u8`
wrap in the length check makes decode reject encode's own output (see the
counterexample). -/
theorem decode_encode_roundtrip (fields : List EncodableData)
    (hfit : ∀ d ∈ fields, d.num_bits ≤ 64 ∧ d.value < 2 ^ d.num_bits)
    (hT : (fields.map EncodableData.num_bits).sum ≤ 251) :
    Base32.decode fields ((Base32.encodeString fields).data.map Char.toNat)
      ((fields.map EncodableData.num_bits).sum) = .ok fields := by
  have hchars : ∀ c ∈ Base32.encodeValues fields, c < 2 ^ 5 := by
    rw [encodeValues_eq_encodeTail]
    exact encodeTail_chars_lt fields 0 0 (by norm_num) (by norm_num) (by norm_num)
  have hbytes : (Base32.encodeString fields).data.map Char.toNat =
      (Base32.encodeValues fields).map
        (fun v => Char.toNat (Char.ofNat (BASE32_ALPHABET.getD v 0))) := by
    rw [Base32.encodeString, List.map_map]
    rfl
  have hmapcv : ((Base32.encodeString fields).data.map Char.toNat).map charValue =
      Base32.encodeValues fields := by
    rw [Base32.encodeString, List.map_map, ← List.map_map]
    exact map_alphabet_charValue _ hchars
  have hlen : ((Base32.encodeString fields).data.map Char.toNat).length =
      ((fields.map EncodableData.num_bits).sum + 4) / 5 := by
    rw [List.length_map]
    have h := encode_length fields (fun d hd => (hfit d hd).1)
    rw [← h]
    rfl
  have hvalid := (length_validation ((fields.map EncodableData.num_bits).sum)
    ((Base32.encodeString fields).data.map Char.toNat) fields hT
    (by rw [hlen]; omega)).1.mpr hlen
  unfold Base32.decode
  rw [hvalid, hmapcv, encodeValues_eq_encodeTail]
  have hdec := decodeFields_couple fields (encodeTail fields 0 0) 0 0 hfit
    (by norm_num) (by rw [List.drop_zero])
  rw [show (5 : Nat) = 5 - 0 from rfl, hdec]

/-- Witness for **C1** at the `"kd3a"` example of the repository's own
doc tests: the 16-bit schema round-trips. -/
theorem decode_encode_roundtrip_witness :
    Base32.decode
      [{ value := 10, num_bits := 5 }, { value := 123, num_bits := 10 },
       { value := 0, num_bits := 1 }]
      ((Base32.encodeString
        [{ value := 10, num_bits := 5 }, { value := 123, num_bits := 10 },
         { value := 0, num_bits := 1 }]).data.map Char.toNat)
      (([{ value := 10, num_bits := 5 }, { value := 123, num_bits := 10 },
         { value := 0, num_bits := 1 }].map EncodableData.num_bits).sum) =
      .ok [{ value := 10, num_bits := 5 }, { value := 123, num_bits := 10 },
       { value := 0, num_bits := 1 }] :=
  decode_encode_roundtrip
    [{ value := 10, num_bits := 5 }, { value := 123, num_bits := 10 },
     { value := 0, num_bits := 1 }] (by decide) (by decide)

end CFCRL
